import Mathlib

/-!
Verification development for the thread-cached hash table `src/hash-table-v2.c`.

The C code is shallowly embedded as pure Lean functions over explicit state.
Modelling conventions, fixed once for the whole file:

* Machine `uint32_t` values are stored and compared but never computed with,
  so they are modelled as `Nat`.
* `HASH_TABLE_CAPACITY` is declared in `hash-table-base.h`, which is not part
  of `src/`; per the spec it is "a bucket-count constant fixed for the table's
  lifetime" supplied by the consumer, so the table is modelled as a list of
  buckets whose length is that capacity.
* `bernstein_hash` is likewise declared outside `src/`; the spec treats the
  hash as an external collaborator ("a pure function hash(key) -> unsigned
  32-bit integer, deterministic"), so every operation takes a parameter
  `hash : String → Nat` and indexes buckets with `hash key % capacity`.
* `malloc`/`strdup` outcomes are modelled by a parameter `allocOk : Bool`
  describing the allocation environment of the call (`true`: every allocation
  in the call succeeds; `false`: every allocation fails).
* `pthread_mutex_lock` failures are modelled as never occurring (the spec
  classifies lock failures as fatal `LockFailure`, outside the state space).
* C strings are Lean `String`s; a nullable `char *` field is `Option String`.
  A key slot holding `none` models a `NULL` pointer.
* The thread-local state of the calling thread (`tls_cache`,
  `tls_cache_registered`) together with the bucket array forms the state
  `TState` acted on by the public operations.
-/

/-- `#define CACHE_SIZE 4` from the source. -/
def CACHE_SIZE : Nat := 4

/-- `struct cache_entry { char *key; uint32_t value; }`.  The key is
`Option String` because the slot pointer may be `NULL`. -/
structure cache_entry where
  key : Option String
  value : Nat
deriving DecidableEq, Repr

instance : Inhabited cache_entry := ⟨⟨none, 0⟩⟩

/-- `struct thread_cache`: fixed array of `CACHE_SIZE` slots, a live count and
a dirty flag.  The mutex is not part of the functional state. -/
structure thread_cache where
  entries : List cache_entry
  count : Nat
  dirty : Bool
deriving DecidableEq, Repr

/-- `struct list_entry { const char *key; uint32_t value; }` stored in a
bucket's singly linked list (head of the list = `SLIST_FIRST`). -/
structure list_entry where
  key : String
  value : Nat
deriving DecidableEq, Repr

/-- The bucket array of `struct hash_table_v2`: one list of entries per
bucket; the list length is `HASH_TABLE_CAPACITY`. -/
abbrev Table := List (List list_entry)

/-- The freshly initialised thread cache produced by `register_thread_cache`:
all slots `NULL`, count 0, not dirty. -/
def initCache : thread_cache :=
  { entries := List.replicate CACHE_SIZE ⟨none, 0⟩, count := 0, dirty := false }

/-- State touched by the public operations when called from one thread: the
shared bucket array plus the calling thread's `tls_cache` and its
`tls_cache_registered` flag. -/
structure TState where
  table : Table
  cache : thread_cache
  registered : Bool
deriving DecidableEq, Repr

/-- The initial state of a thread that has never called the API, against a
freshly created table of the given capacity (`hash_table_v2_create` with
`calloc` succeeding: every bucket list empty). -/
def initState (capacity : Nat) : TState :=
  { table := List.replicate capacity [], cache := initCache, registered := false }

/-- The `SLIST_FOREACH` search in `flush_thread_cache` (lines 113–121): find
the first entry whose key `strcmp`s equal and overwrite its value, returning
`none` when no entry matches (the loop falls through). -/
def slist_update_first : List list_entry → String → Nat → Option (List list_entry)
  | [], _, _ => none
  | le :: rest, k, v =>
      if le.key = k then some ({ key := le.key, value := v } :: rest)
      else (slist_update_first rest k v).map (le :: ·)

/-- One iteration of the `for` loop of `flush_thread_cache` (lines 102–137):
skip a `NULL` key; otherwise, under the bucket lock, either overwrite the
existing entry (freeing the cache's key copy, i.e. setting the slot to
`none`), or — when absent — allocate a new `list_entry` taking over the key
and push it at the bucket list's head with `SLIST_INSERT_HEAD`.  On `malloc`
failure the key is freed and the write skipped.  Note that in the successful
insert branch the source does NOT clear `cache->entries[i].key`. -/
def flush_one_entry (hash : String → Nat) (allocOk : Bool) (ht : Table)
    (ce : cache_entry) : Table × cache_entry :=
  match ce.key with
  | none => (ht, ce)
  | some entry_key =>
      let index := hash entry_key % ht.length
      let bucket := ht.getD index []
      match slist_update_first bucket entry_key ce.value with
      | some bucket2 => (ht.set index bucket2, { ce with key := none })
      | none =>
          if allocOk then
            (ht.set index ({ key := entry_key, value := ce.value } :: bucket), ce)
          else
            (ht, { ce with key := none })

/-- The whole `for (size_t i = 0; i < cache->count; i++)` loop, processing the
live prefix of the slot array in original insertion order and returning the
updated table together with the updated slots. -/
def flush_loop (hash : String → Nat) (allocOk : Bool) :
    Table → List cache_entry → Table × List cache_entry
  | ht, [] => (ht, [])
  | ht, ce :: rest =>
      let p := flush_one_entry hash allocOk ht ce
      let q := flush_loop hash allocOk p.1 rest
      (q.1, p.2 :: q.2)

/-- `flush_thread_cache` (lines 94–142): run the loop over the first `count`
slots, then reset `count` to 0 and clear `dirty`.  Slots beyond `count` are
untouched. -/
def flush_thread_cache (hash : String → Nat) (allocOk : Bool) (ht : Table)
    (cache : thread_cache) : Table × thread_cache :=
  let p := flush_loop hash allocOk ht (cache.entries.take cache.count)
  (p.1, { entries := p.2 ++ cache.entries.drop cache.count,
          count := 0, dirty := false })

/-- `register_thread_cache` (lines 64–89): on first use, initialise the
thread's cache (count 0, dirty false, all slots `NULL`) and set the
registered flag; idempotent. -/
def register_thread_cache (s : TState) : TState :=
  if s.registered then s
  else { s with cache := initCache, registered := true }

/-- `hash_table_v2_add_entry` (lines 211–246): register on first use; if the
cache is full (`count == CACHE_SIZE`) flush it first; then `strdup` the key
and append `(key copy, value)` at index `count`, incrementing `count` and
setting `dirty`.  When `strdup` fails (`allocOk = false`) the function
returns with no other effect — the C function returns `void`, so the caller
receives no error indication. -/
def hash_table_v2_add_entry (hash : String → Nat) (allocOk : Bool) (s : TState)
    (key : String) (value : Nat) : TState :=
  let s1 := register_thread_cache s
  let s2 :=
    if s1.cache.count = CACHE_SIZE then
      let p := flush_thread_cache hash allocOk s1.table s1.cache
      { s1 with table := p.1, cache := p.2 }
    else s1
  if allocOk then
    { s2 with cache :=
      { entries := s2.cache.entries.set s2.cache.count ⟨some key, value⟩,
        count := s2.cache.count + 1,
        dirty := true } }
  else s2

/-- The bounded `SLIST_FOREACH` of `hash_table_v2_contains` (lines 261–272):
`++iteration_count > max_iterations` is tested before the `strcmp`, so at
most `max_iterations` entries are examined; a later match is never seen. -/
def scan_bucket : List list_entry → String → Nat → Nat → Bool
  | [], _, _, _ => false
  | le :: rest, key, iteration_count, max_iterations =>
      if iteration_count + 1 > max_iterations then false
      else if le.key = key then true
      else scan_bucket rest key (iteration_count + 1) max_iterations

/-- The self-flush prologue shared by the read path (lines 252–254): flush the
calling thread's cache iff it is registered and dirty. -/
def self_flush (hash : String → Nat) (allocOk : Bool) (s : TState) : TState :=
  if s.registered && s.cache.dirty then
    let p := flush_thread_cache hash allocOk s.table s.cache
    { s with table := p.1, cache := p.2 }
  else s

/-- `hash_table_v2_contains` (lines 248–276): self-flush, then scan the target
bucket with the 10000-iteration safeguard.  Returns the boolean result and
the post-state (the self-flush mutates the state). -/
def hash_table_v2_contains (hash : String → Nat) (allocOk : Bool) (s : TState)
    (key : String) : Bool × TState :=
  let s1 := self_flush hash allocOk s
  let index := hash key % s1.table.length
  (scan_bucket (s1.table.getD index []) key 0 10000, s1)

/-- Plain first-match association lookup in a bucket list. -/
def slist_lookup : List list_entry → String → Option Nat
  | [], _ => none
  | le :: rest, key => if le.key = key then some le.value else slist_lookup rest key

/-- Modelled from the spec: `src/` contains no `hash_table_v2_get_value`; the
spec (§4.5) defines it as "same flush/lookup path as `contains`; fails with
`NotFound` if the key is absent after the flush".  `none` models the
`NotFound` error result. -/
def hash_table_v2_get_value (hash : String → Nat) (allocOk : Bool) (s : TState)
    (key : String) : Option Nat × TState :=
  let s1 := self_flush hash allocOk s
  let index := hash key % s1.table.length
  (slist_lookup (s1.table.getD index []) key, s1)

/-- `flush_all_caches` (lines 149–186): snapshot the registry under
`master_lock`; if the snapshot array cannot be allocated (`allocOk = false`
with a non-empty registry) no cache is flushed; otherwise flush each
registered cache in list order outside the registry lock. -/
def flush_caches_loop (hash : String → Nat) (allocOk : Bool) :
    Table → List thread_cache → Table × List thread_cache
  | ht, [] => (ht, [])
  | ht, c :: rest =>
      let p := flush_thread_cache hash allocOk ht c
      let q := flush_caches_loop hash allocOk p.1 rest
      (q.1, p.2 :: q.2)

def flush_all_caches (hash : String → Nat) (allocOk : Bool) (ht : Table)
    (master_list : List thread_cache) : Table × List thread_cache :=
  if !master_list.isEmpty && !allocOk then (ht, master_list)
  else flush_caches_loop hash allocOk ht master_list

/-- `hash_table_v2_destroy` (lines 278–355), observably: flush every
registered cache, then drain every bucket in index order (head removal
yields the list in order), returning the drained entry set whose keys are
freed.  The mutex destruction and `free` calls carry no functional state. -/
def hash_table_v2_destroy (hash : String → Nat) (allocOk : Bool) (ht : Table)
    (master_list : List thread_cache) : List list_entry :=
  (flush_all_caches hash allocOk ht master_list).1.flatten

/-- The key/value pair carried by a cache slot, `none` for a `NULL` slot. -/
def cacheKV (ce : cache_entry) : Option (String × Nat) :=
  ce.key.map (fun k => (k, ce.value))

/-- The live buffered writes of a cache: the key/value pairs of the non-`NULL`
slots among the first `count`, in insertion order. -/
def pendingWrites (c : thread_cache) : List (String × Nat) :=
  (c.entries.take c.count).filterMap cacheKV

/-- First-match lookup of a key in its target bucket: the value the bucket
store associates to `k`. -/
def table_lookup (hash : String → Nat) (ht : Table) (k : String) : Option Nat :=
  slist_lookup (ht.getD (hash k % ht.length) []) k

/-- The keys of all entries currently stored in the table. -/
def tableKeys (t : Table) : List String := t.flatten.map list_entry.key

/-- The value of the last write for key `k` in a write sequence, if any. -/
def lastWrite (ws : List (String × Nat)) (k : String) : Option Nat :=
  (List.find? (fun p => p.1 == k) ws.reverse).map Prod.snd

/-- Structural well-formedness of a thread cache, satisfied by every cache the
source can construct: the slot array has length `CACHE_SIZE`, at most
`CACHE_SIZE` slots are live, live slots hold non-`NULL` keys, and the dirty
flag tracks `count != 0`. -/
structure CacheWF (c : thread_cache) : Prop where
  len : c.entries.length = CACHE_SIZE
  count_le : c.count ≤ CACHE_SIZE
  live : ∀ ce ∈ c.entries.take c.count, ce.key.isSome = true
  dirty_iff : c.dirty = decide (c.count ≠ 0)

/-- Well-formedness of a thread's state: the cache is well-formed, and an
unregistered thread still has the pristine `tls_cache`. -/
structure StateWF (s : TState) : Prop where
  cwf : CacheWF s.cache
  unreg : s.registered = false → s.cache = initCache

/-- What a thread observes for key `k` through its own cache overlaid on the
bucket store: the last pending write for `k` if any, else the stored value. -/
def view (hash : String → Nat) (s : TState) (k : String) : Option Nat :=
  (lastWrite (pendingWrites s.cache) k).or (table_lookup hash s.table k)

/-- A sequence of `add_entry` calls issued by one thread, in order. -/
def run (hash : String → Nat) (allocOk : Bool) : TState → List (String × Nat) → TState
  | s, [] => s
  | s, w :: ws => run hash allocOk (hash_table_v2_add_entry hash allocOk s w.1 w.2) ws

/-- One atomic mutation of the bucket store: the body of the flush loop for a
single buffered write, executed under the target bucket's mutex (lines
111–136).  This is the only code in the source that mutates a bucket list. -/
def bucket_upsert (hash : String → Nat) (allocOk : Bool) (ht : Table) (k : String)
    (v : Nat) : Table :=
  (flush_one_entry hash allocOk ht ⟨some k, v⟩).1

/-- Tables reachable from a fresh table by any interleaving of operations by
any number of threads, together with the list of keys written.  Because each
loop body of `flush_thread_cache` runs under the target bucket's mutex and no
other statement mutates a bucket, the bucket store's content of every
concurrent execution is a sequence of atomic `bucket_upsert` steps. -/
inductive table_reach (hash : String → Nat) (capacity : Nat) : Table → List String → Prop
  | init : table_reach hash capacity (List.replicate capacity []) []
  | step {ht : Table} {ws : List String} (allocOk : Bool) (k : String) (v : Nat) :
      table_reach hash capacity ht ws →
      table_reach hash capacity (bucket_upsert hash allocOk ht k v) (k :: ws)

/-- Per-bucket invariant of the bucket store: every bucket's list has no
duplicate keys, and every entry sits in the bucket its key hashes to. -/
def TableWF (hash : String → Nat) (t : Table) : Prop :=
  ∀ i, ((t.getD i []).map list_entry.key).Nodup
    ∧ ∀ e ∈ t.getD i [], hash e.key % t.length = i

/-- Distinct key strings for the long-bucket scenario (`n` letters a). -/
def aKey (n : Nat) : String := String.mk (List.replicate n 'a')

/-- 10004 writes of pairwise distinct keys issued by a single thread. -/
def cexWrites : List (String × Nat) := (List.range 10004).map (fun n => (aKey (n + 1), n))

/-- A buffered write as the bucket entry it becomes. -/
def toLE (p : String × Nat) : list_entry := ⟨p.1, p.2⟩

/-- Shape of the single-thread state over a 1-bucket table after a run of
pairwise distinct keys: some prefix has been flushed (to the head of the one
bucket, in reverse order) and the rest is pending in the cache. -/
def CexInv (done : List (String × Nat)) (s : TState) : Prop :=
  (done = [] ∧ s = initState 1) ∨
  (s.registered = true ∧ CacheWF s.cache ∧ pendingWrites s.cache ≠ [] ∧
    ∃ flushed, done = flushed ++ pendingWrites s.cache ∧
      s.table = [(flushed.map toLE).reverse])

/-- Key `k` is recorded somewhere in the thread's state: in the bucket store
or among the thread's pending buffered writes. -/
def stateKeys (s : TState) (k : String) : Prop :=
  k ∈ tableKeys s.table ∨ ∃ v, (k, v) ∈ pendingWrites s.cache

/-! ### Lock traces

The deadlock-discipline claims are about the order of `pthread_mutex_lock`
calls.  Each operation is mapped to the sequence of acquire/release events it
performs, read off the source line by line; a checker replays a trace against
the set of locks held. -/

/-- The three kinds of locks of the source: `master_lock`, a `thread_cache`
lock (identified by its owning thread) and a bucket mutex (identified by its
index). -/
inductive lock_id where
  | registry : lock_id
  | cache : Nat → lock_id
  | bucket : Nat → lock_id
deriving DecidableEq, Repr

/-- A lock acquisition or release event. -/
inductive lock_ev where
  | acq : lock_id → lock_ev
  | rel : lock_id → lock_ev
deriving DecidableEq, Repr

def is_bucket : lock_id → Bool
  | .bucket _ => true
  | _ => false

/-- The nesting discipline of the spec at the instant a lock is acquired with
`held` locks already held: the registry lock is taken with nothing held; a
cache lock is never taken while the registry lock or any bucket lock is held;
a bucket lock is never taken while the registry lock is held. -/
def acq_ok (held : List lock_id) : lock_id → Bool
  | .registry => held.isEmpty
  | .cache _ => decide (lock_id.registry ∉ held)
      && decide (∀ l ∈ held, is_bucket l = false)
  | .bucket _ => decide (lock_id.registry ∉ held)

/-- Replay a trace, tracking held locks; `none` the moment an acquisition
violates the discipline. -/
def run_held : List lock_id → List lock_ev → Option (List lock_id)
  | held, [] => some held
  | held, .acq l :: rest => if acq_ok held l then run_held (l :: held) rest else none
  | held, .rel l :: rest => run_held (held.erase l) rest

def discipline_ok (tr : List lock_ev) : Bool := (run_held [] tr).isSome

def bucket_pair (i : Nat) : List lock_ev := [.acq (.bucket i), .rel (.bucket i)]

/-- `register_thread_cache`: take and release `master_lock` (lines 67–88). -/
def register_trace : List lock_ev := [.acq .registry, .rel .registry]

/-- `flush_thread_cache` (lines 97–141): take the cache's lock, then for each
live non-`NULL` slot take and release the target bucket's mutex (every branch
of the loop body releases it), then release the cache's lock. -/
def flush_trace (hash : String → Nat) (capacity : Nat) (tid : Nat)
    (c : thread_cache) : List lock_ev :=
  .acq (.cache tid) ::
    ((c.entries.take c.count).flatMap (fun ce =>
        match ce.key with
        | none => []
        | some k => bucket_pair (hash k % capacity))
      ++ [.rel (.cache tid)])

/-- `hash_table_v2_add_entry` (lines 214–245): register if needed, take the
cache lock; when full, release it, flush, re-take it; release at the end. -/
def add_entry_trace (hash : String → Nat) (capacity : Nat) (tid : Nat)
    (s : TState) : List lock_ev :=
  (if s.registered then [] else register_trace) ++
  (if (register_thread_cache s).cache.count = CACHE_SIZE then
     [.acq (.cache tid), .rel (.cache tid)]
       ++ flush_trace hash capacity tid (register_thread_cache s).cache
       ++ [.acq (.cache tid), .rel (.cache tid)]
   else [.acq (.cache tid), .rel (.cache tid)])

/-- `hash_table_v2_contains` (lines 252–274): self-flush if registered and
dirty, then take and release the target bucket's mutex. -/
def contains_trace (hash : String → Nat) (capacity : Nat) (tid : Nat)
    (s : TState) (key : String) : List lock_ev :=
  (if s.registered && s.cache.dirty then flush_trace hash capacity tid s.cache else []) ++
  bucket_pair (hash key % capacity)

/-- `flush_all_caches` (lines 153–183): snapshot the registry under
`master_lock` and release it, then flush each snapshotted cache outside the
registry lock.  When the snapshot array cannot be allocated, nothing is
flushed. -/
def flush_all_trace (hash : String → Nat) (capacity : Nat) (allocOk : Bool)
    (caches : List (Nat × thread_cache)) : List lock_ev :=
  register_trace ++
  (if !caches.isEmpty && !allocOk then []
   else caches.flatMap (fun tc => flush_trace hash capacity tc.1 tc.2))

/-- `hash_table_v2_destroy` (lines 282–331): flush all, snapshot the registry
again under `master_lock`, then lock/unlock each cache during cleanup. -/
def destroy_trace (hash : String → Nat) (capacity : Nat) (allocOk : Bool)
    (caches : List (Nat × thread_cache)) : List lock_ev :=
  flush_all_trace hash capacity allocOk caches ++ register_trace ++
  (if !caches.isEmpty && !allocOk then []
   else caches.flatMap (fun tc => [.acq (.cache tc.1), .rel (.cache tc.1)]))

/-! ### Concrete states used by witnesses and counterexamples -/

/-- A cache holding the single buffered write `("k", 1)`. -/
def c3cache : thread_cache :=
  { entries := ⟨some "k", 1⟩ :: List.replicate 3 ⟨none, 0⟩, count := 1, dirty := true }

/-- A registered thread with an empty cache, over a 1-bucket table. -/
def c4state : TState := { table := [[]], cache := initCache, registered := true }

/-- A bucket whose only entry for key "b" lies beyond the first 10000 nodes. -/
def c10bucket : List list_entry := List.replicate 10000 ⟨"a", 0⟩ ++ [⟨"b", 5⟩]

/-- A clean-cache state whose single bucket holds the matching entry only
beyond the first 10000 nodes. -/
def c10state : TState :=
  { table := [c10bucket], cache := initCache, registered := false }

/-- A cache holding exactly two buffered writes. -/
def mkCache2 (k1 k2 : String) (v1 v2 : Nat) : thread_cache :=
  { entries := [⟨some k1, v1⟩, ⟨some k2, v2⟩, ⟨none, 0⟩, ⟨none, 0⟩],
    count := 2, dirty := true }

/-- Three thread caches, each with two unflushed writes (spec §8 scenario). -/
def c7caches : List thread_cache :=
  [mkCache2 "a" "b" 1 2, mkCache2 "c" "d" 3 4, mkCache2 "e" "f" 5 6]

def c7table : Table := List.replicate 8 []

/-- A registered thread whose cache is exactly full (count = CACHE_SIZE). -/
def c8state : TState :=
  { table := [[]],
    cache := { entries := [⟨some "a", 1⟩, ⟨some "b", 2⟩, ⟨some "c", 3⟩, ⟨some "d", 4⟩],
               count := 4, dirty := true },
    registered := true }

/-! ## Theorems -/

-- Sanity checks of the embedding on concrete runs (spec §8 concrete scenario).
example :
    (hash_table_v2_contains (fun s => s.length) true
      (hash_table_v2_add_entry (fun s => s.length) true (initState 8) "a" 1)
      "a").1 = true := by decide

example :
    (hash_table_v2_get_value (fun s => s.length) true
      (hash_table_v2_add_entry (fun s => s.length) true
        (hash_table_v2_add_entry (fun s => s.length) true (initState 8) "a" 1)
        "a" 99)
      "a").1 = some 99 := by decide

example :
    (hash_table_v2_contains (fun s => s.length) true (initState 8) "zz").1 = false := by
  decide

/-! ### List utilities -/

theorem getD_set_self {α : Type} (l : List α) (i : Nat) (a d : α)
    (h : i < l.length) : (l.set i a).getD i d = a := by
  rw [List.getD_eq_getElem _ _ (by simpa using h)]
  exact List.getElem_set_self _

theorem getD_set_ne {α : Type} (l : List α) (i j : Nat) (a d : α)
    (hij : i ≠ j) : (l.set i a).getD j d = l.getD j d := by
  by_cases hj : j < l.length
  · rw [List.getD_eq_getElem _ _ (by simpa using hj), List.getD_eq_getElem _ _ hj]
    exact List.getElem_set_ne hij _
  · rw [List.getD_eq_default _ _ (by simpa using Nat.le_of_not_lt hj),
      List.getD_eq_default _ _ (Nat.le_of_not_lt hj)]

theorem take_set_concat {α : Type} :
    ∀ (l : List α) (n : Nat) (a : α), n < l.length →
      (l.set n a).take (n + 1) = l.take n ++ [a]
  | [], n, a, h => absurd h (by simp)
  | x :: xs, 0, a, _ => by simp
  | x :: xs, n + 1, a, h => by
      rw [List.set_cons_succ, List.take_succ_cons, List.take_succ_cons,
        take_set_concat xs n a (by simpa using h)]
      rfl

/-! ### Bucket list lemmas -/

theorem slist_lookup_eq_none {b : List list_entry} {k : String}
    (h : ∀ e ∈ b, e.key ≠ k) : slist_lookup b k = none := by
  induction b with
  | nil => rfl
  | cons le rest ih =>
      have h1 : le.key ≠ k := h le (by simp)
      simp only [slist_lookup, if_neg h1]
      exact ih (fun e he => h e (by simp [he]))

theorem slist_update_first_eq_none {b : List list_entry} {k : String} {v : Nat} :
    slist_update_first b k v = none ↔ ∀ e ∈ b, e.key ≠ k := by
  induction b with
  | nil => simp [slist_update_first]
  | cons le rest ih =>
      by_cases hk : le.key = k
      · simp [slist_update_first, hk]
      · simp only [slist_update_first, if_neg hk, Option.map_eq_none', ih]
        constructor
        · intro h e he
          rcases List.mem_cons.mp he with h1 | h1
          · rw [h1]; exact hk
          · exact h e h1
        · intro h e he; exact h e (List.mem_cons_of_mem _ he)

theorem slist_update_first_spec {b b2 : List list_entry} {k : String} {v : Nat}
    (h : slist_update_first b k v = some b2) :
    (∀ k2, slist_lookup b2 k2 = if k2 = k then some v else slist_lookup b k2)
    ∧ b2.map list_entry.key = b.map list_entry.key := by
  induction b generalizing b2 with
  | nil => simp [slist_update_first] at h
  | cons le rest ih =>
      by_cases hk : le.key = k
      · simp only [slist_update_first, if_pos hk] at h
        injection h with h
        subst h
        refine ⟨fun k2 => ?_, by simp⟩
        by_cases h2 : k2 = k
        · subst h2; simp [slist_lookup, hk]
        · have hne : le.key ≠ k2 := by rw [hk]; exact fun h3 => h2 h3.symm
          simp [slist_lookup, hne, h2]
      · simp only [slist_update_first, if_neg hk, Option.map_eq_some'] at h
        obtain ⟨r2, hr2, hb2⟩ := h
        obtain ⟨ih1, ih2⟩ := ih hr2
        subst hb2
        refine ⟨fun k2 => ?_, by simp [ih2]⟩
        by_cases h2 : k2 = k
        · subst h2
          simp [slist_lookup, hk, ih1 k2]
        · by_cases h3 : le.key = k2
          · simp [slist_lookup, h3, h2]
          · simp [slist_lookup, h3, ih1 k2, h2]

theorem slist_update_first_mem {b b2 : List list_entry} {k : String} {v : Nat}
    (h : slist_update_first b k v = some b2) : k ∈ b.map list_entry.key := by
  by_contra hn
  have hnone : slist_update_first b k v = none :=
    slist_update_first_eq_none.mpr
      (fun e he hk => hn (List.mem_map.mpr ⟨e, he, hk⟩))
  rw [hnone] at h
  cases h

/-! ### Flush step lemmas -/

theorem flush_one_none (hash : String → Nat) (a : Bool) (ht : Table) (v0 : Nat) :
    flush_one_entry hash a ht ⟨none, v0⟩ = (ht, ⟨none, v0⟩) := rfl

theorem flush_one_some (hash : String → Nat) (a : Bool) (ht : Table) (k0 : String)
    (v0 : Nat) :
    flush_one_entry hash a ht ⟨some k0, v0⟩ =
      match slist_update_first (ht.getD (hash k0 % ht.length) []) k0 v0 with
      | some bucket2 => (ht.set (hash k0 % ht.length) bucket2, ⟨none, v0⟩)
      | none =>
          if a then
            (ht.set (hash k0 % ht.length)
              ({ key := k0, value := v0 } :: ht.getD (hash k0 % ht.length) []),
             ⟨some k0, v0⟩)
          else (ht, ⟨none, v0⟩) := rfl

theorem flush_one_length (hash : String → Nat) (a : Bool) (ht : Table)
    (ce : cache_entry) : ((flush_one_entry hash a ht ce).1).length = ht.length := by
  rcases ce with ⟨ko, v0⟩
  cases ko with
  | none => rfl
  | some k0 =>
      rw [flush_one_some]
      cases h : slist_update_first (ht.getD (hash k0 % ht.length) []) k0 v0 with
      | some b2 => simp [List.length_set]
      | none => cases a <;> simp [List.length_set]

theorem flush_one_lookup (hash : String → Nat) (ht : Table) (k0 : String) (v0 : Nat)
    (hlen : 0 < ht.length) (k : String) :
    table_lookup hash (flush_one_entry hash true ht ⟨some k0, v0⟩).1 k
      = if k = k0 then some v0 else table_lookup hash ht k := by
  have hi0 : hash k0 % ht.length < ht.length := Nat.mod_lt _ hlen
  rw [flush_one_some]
  cases h : slist_update_first (ht.getD (hash k0 % ht.length) []) k0 v0 with
  | some b2 =>
      obtain ⟨hlook, _⟩ := slist_update_first_spec h
      show table_lookup hash (ht.set (hash k0 % ht.length) b2) k = _
      unfold table_lookup
      rw [List.length_set]
      by_cases hk : k = k0
      · subst hk
        rw [getD_set_self _ _ _ _ hi0, hlook k]
      · rw [if_neg hk]
        by_cases hb : hash k % ht.length = hash k0 % ht.length
        · rw [hb, getD_set_self _ _ _ _ hi0, hlook k, if_neg hk]
        · rw [getD_set_ne _ _ _ _ _ (fun he => hb he.symm)]
  | none =>
      show table_lookup hash
          (ht.set (hash k0 % ht.length)
            ({ key := k0, value := v0 } :: ht.getD (hash k0 % ht.length) [])) k = _
      unfold table_lookup
      rw [List.length_set]
      by_cases hk : k = k0
      · subst hk
        rw [getD_set_self _ _ _ _ hi0, if_pos rfl]
        simp [slist_lookup]
      · rw [if_neg hk]
        by_cases hb : hash k % ht.length = hash k0 % ht.length
        · rw [hb, getD_set_self _ _ _ _ hi0]
          have hne : ({ key := k0, value := v0 } : list_entry).key ≠ k :=
            fun he => hk (by simpa using he.symm)
          simp only [slist_lookup, if_neg hne]
        · rw [getD_set_ne _ _ _ _ _ (fun he => hb he.symm)]

/-! ### Last-write lemmas -/

theorem lastWrite_nil (k : String) : lastWrite [] k = none := rfl

theorem lastWrite_cons (p : String × Nat) (l : List (String × Nat)) (k : String) :
    lastWrite (p :: l) k
      = (lastWrite l k).or (if p.1 = k then some p.2 else none) := by
  unfold lastWrite
  rw [List.reverse_cons, List.find?_append]
  cases hf : List.find? (fun q => q.1 == k) l.reverse with
  | some q => simp [Option.or]
  | none =>
      by_cases hp : p.1 = k
      · simp [List.find?_cons, beq_iff_eq, hp, Option.or]
      · simp [List.find?_cons, beq_iff_eq, hp, Option.or]

theorem lastWrite_concat (l : List (String × Nat)) (p : String × Nat) (k : String) :
    lastWrite (l ++ [p]) k = if p.1 = k then some p.2 else lastWrite l k := by
  unfold lastWrite
  rw [List.reverse_concat, List.find?_cons]
  cases hbeq : p.1 == k with
  | true =>
      have hp : p.1 = k := by simpa [beq_iff_eq] using hbeq
      simp [hp]
  | false =>
      have hp : ¬p.1 = k := by simpa [beq_iff_eq] using hbeq
      simp [hp]

/-! ### Flush loop lemmas -/

theorem flush_loop_fst_length (hash : String → Nat) (a : Bool) :
    ∀ (ces : List cache_entry) (ht : Table),
      ((flush_loop hash a ht ces).1).length = ht.length
  | [], _ => rfl
  | ce :: rest, ht => by
      simp only [flush_loop]
      rw [flush_loop_fst_length hash a rest _, flush_one_length]

theorem flush_loop_snd_length (hash : String → Nat) (a : Bool) :
    ∀ (ces : List cache_entry) (ht : Table),
      ((flush_loop hash a ht ces).2).length = ces.length
  | [], _ => rfl
  | ce :: rest, ht => by
      simp only [flush_loop, List.length_cons]
      rw [flush_loop_snd_length hash a rest _]

theorem flush_loop_lookup (hash : String → Nat) :
    ∀ (ces : List cache_entry) (ht : Table), 0 < ht.length → ∀ k : String,
      table_lookup hash (flush_loop hash true ht ces).1 k
        = (lastWrite (ces.filterMap cacheKV) k).or (table_lookup hash ht k)
  | [], ht, _, k => by simp [flush_loop, lastWrite_nil, Option.or]
  | ce :: rest, ht, hlen, k => by
      rcases ce with ⟨ko, v0⟩
      cases ko with
      | none =>
          simp only [flush_loop, flush_one_none]
          rw [flush_loop_lookup hash rest ht hlen k]
          simp [List.filterMap_cons, cacheKV]
      | some k0 =>
          simp only [flush_loop]
          rw [flush_loop_lookup hash rest _ (by rw [flush_one_length]; exact hlen) k]
          rw [flush_one_lookup hash ht k0 v0 hlen k]
          have hfm : List.filterMap cacheKV (⟨some k0, v0⟩ :: rest)
              = (k0, v0) :: rest.filterMap cacheKV := by
            simp [List.filterMap_cons, cacheKV]
          rw [hfm, lastWrite_cons]
          cases hl : lastWrite (rest.filterMap cacheKV) k with
          | some v => simp [Option.or]
          | none =>
              by_cases hk : k = k0
              · subst hk; simp [Option.or]
              · have hk2 : ¬(k0 = k) := fun he => hk he.symm
                simp [hk, hk2, Option.or]

/-! ### Whole-flush lemmas -/

theorem flush_cache_lookup (hash : String → Nat) (ht : Table) (c : thread_cache)
    (hlen : 0 < ht.length) (k : String) :
    table_lookup hash (flush_thread_cache hash true ht c).1 k
      = (lastWrite (pendingWrites c) k).or (table_lookup hash ht k) :=
  flush_loop_lookup hash (c.entries.take c.count) ht hlen k

theorem flush_cache_fst_length (hash : String → Nat) (a : Bool) (ht : Table)
    (c : thread_cache) : ((flush_thread_cache hash a ht c).1).length = ht.length :=
  flush_loop_fst_length hash a _ ht

theorem flush_cache_count (hash : String → Nat) (a : Bool) (ht : Table)
    (c : thread_cache) : (flush_thread_cache hash a ht c).2.count = 0 := rfl

theorem flush_cache_dirty (hash : String → Nat) (a : Bool) (ht : Table)
    (c : thread_cache) : (flush_thread_cache hash a ht c).2.dirty = false := rfl

theorem flush_cache_pending (hash : String → Nat) (a : Bool) (ht : Table)
    (c : thread_cache) : pendingWrites (flush_thread_cache hash a ht c).2 = [] := rfl

theorem flush_cache_entries_length (hash : String → Nat) (a : Bool) (ht : Table)
    (c : thread_cache) :
    (flush_thread_cache hash a ht c).2.entries.length = c.entries.length := by
  show ((flush_loop hash a ht (c.entries.take c.count)).2
        ++ c.entries.drop c.count).length = _
  rw [List.length_append, flush_loop_snd_length, List.length_take, List.length_drop]
  omega

/-! ### add_entry shape lemmas -/

theorem register_table (s : TState) : (register_thread_cache s).table = s.table := by
  unfold register_thread_cache
  split <;> rfl

theorem register_registered (s : TState) :
    (register_thread_cache s).registered = true := by
  unfold register_thread_cache
  by_cases hr : s.registered = true
  · simp [hr]
  · simp [hr]

theorem register_cache_of_wf (s : TState) (hwf : StateWF s) :
    (register_thread_cache s).cache = s.cache := by
  unfold register_thread_cache
  by_cases hr : s.registered = true
  · simp [hr]
  · simp [hr, hwf.unreg (by simpa using hr)]

theorem add_entry_true_full (hash : String → Nat) (s : TState) (k0 : String) (v0 : Nat)
    (hfull : (register_thread_cache s).cache.count = CACHE_SIZE) :
    hash_table_v2_add_entry hash true s k0 v0 =
      { table := (flush_thread_cache hash true (register_thread_cache s).table
                   (register_thread_cache s).cache).1,
        cache := { entries := (flush_thread_cache hash true (register_thread_cache s).table
                     (register_thread_cache s).cache).2.entries.set
                       (flush_thread_cache hash true (register_thread_cache s).table
                         (register_thread_cache s).cache).2.count ⟨some k0, v0⟩,
                   count := (flush_thread_cache hash true (register_thread_cache s).table
                     (register_thread_cache s).cache).2.count + 1,
                   dirty := true },
        registered := (register_thread_cache s).registered } := by
  simp [hash_table_v2_add_entry, hfull]

theorem add_entry_true_notfull (hash : String → Nat) (s : TState) (k0 : String) (v0 : Nat)
    (hfull : ¬((register_thread_cache s).cache.count = CACHE_SIZE)) :
    hash_table_v2_add_entry hash true s k0 v0 =
      { table := (register_thread_cache s).table,
        cache := { entries := (register_thread_cache s).cache.entries.set
                     (register_thread_cache s).cache.count ⟨some k0, v0⟩,
                   count := (register_thread_cache s).cache.count + 1,
                   dirty := true },
        registered := (register_thread_cache s).registered } := by
  simp [hash_table_v2_add_entry, hfull]

/-! ### Well-formedness preservation -/

theorem CacheWF_initCache : CacheWF initCache := by
  refine ⟨rfl, by simp [initCache, CACHE_SIZE], ?_, rfl⟩
  intro ce hce
  simp [initCache] at hce

theorem flush_cache_wf (hash : String → Nat) (a : Bool) (ht : Table) (c : thread_cache)
    (h : CacheWF c) : CacheWF (flush_thread_cache hash a ht c).2 := by
  refine ⟨?_, ?_, ?_, rfl⟩
  · rw [flush_cache_entries_length]; exact h.len
  · rw [flush_cache_count]; exact Nat.zero_le _
  · intro ce hce
    rw [flush_cache_count] at hce
    simp at hce

theorem pendingWrites_append (c : thread_cache) (k : String) (v : Nat)
    (hlt : c.count < c.entries.length) :
    pendingWrites { entries := c.entries.set c.count ⟨some k, v⟩,
                    count := c.count + 1, dirty := true }
      = pendingWrites c ++ [(k, v)] := by
  unfold pendingWrites
  show (List.take (c.count + 1) (c.entries.set c.count ⟨some k, v⟩)).filterMap cacheKV = _
  rw [take_set_concat _ _ _ hlt, List.filterMap_append]
  simp [cacheKV]

theorem append_cache_wf (c : thread_cache) (k : String) (v : Nat)
    (h : CacheWF c) (hlt : c.count < c.entries.length) :
    CacheWF { entries := c.entries.set c.count ⟨some k, v⟩,
              count := c.count + 1, dirty := true } := by
  refine ⟨?_, ?_, ?_, ?_⟩
  · dsimp only
    simp only [List.length_set]
    exact h.len
  · dsimp only
    rw [h.len] at hlt
    omega
  · dsimp only
    intro ce hce
    rw [take_set_concat _ _ _ hlt] at hce
    rcases List.mem_append.mp hce with h1 | h1
    · exact h.live ce h1
    · simp only [List.mem_singleton] at h1
      rw [h1]
      rfl
  · dsimp only
    simp

theorem add_entry_true_wf (hash : String → Nat) (s : TState) (k0 : String) (v0 : Nat)
    (hwf : StateWF s) : StateWF (hash_table_v2_add_entry hash true s k0 v0) := by
  have hcr := register_cache_of_wf s hwf
  by_cases hfull : (register_thread_cache s).cache.count = CACHE_SIZE
  · rw [add_entry_true_full hash s k0 v0 hfull]
    have hfc := flush_cache_wf hash true (register_thread_cache s).table
      (register_thread_cache s).cache (by rw [hcr]; exact hwf.cwf)
    refine ⟨append_cache_wf _ k0 v0 hfc ?_, ?_⟩
    · rw [flush_cache_count, hfc.len]
      simp [CACHE_SIZE]
    · intro hreg
      exact Bool.noConfusion ((register_registered s).symm.trans hreg)
  · rw [add_entry_true_notfull hash s k0 v0 hfull]
    have hcwf : CacheWF (register_thread_cache s).cache := by rw [hcr]; exact hwf.cwf
    have hlt : (register_thread_cache s).cache.count
        < (register_thread_cache s).cache.entries.length := by
      rw [hcwf.len]
      have hle := hcwf.count_le
      rw [show CACHE_SIZE = 4 from rfl] at hle hfull ⊢
      omega
    refine ⟨append_cache_wf _ k0 v0 hcwf hlt, ?_⟩
    intro hreg
    exact Bool.noConfusion ((register_registered s).symm.trans hreg)

/-! ### View preservation -/

theorem add_entry_table_length_true (hash : String → Nat) (s : TState) (k0 : String)
    (v0 : Nat) :
    (hash_table_v2_add_entry hash true s k0 v0).table.length = s.table.length := by
  by_cases hfull : (register_thread_cache s).cache.count = CACHE_SIZE
  · rw [add_entry_true_full hash s k0 v0 hfull]
    dsimp only
    rw [flush_cache_fst_length, register_table]
  · rw [add_entry_true_notfull hash s k0 v0 hfull]
    dsimp only
    rw [register_table]

theorem view_add (hash : String → Nat) (s : TState) (k0 : String) (v0 : Nat)
    (hwf : StateWF s) (hlen : 0 < s.table.length) (k : String) :
    view hash (hash_table_v2_add_entry hash true s k0 v0) k
      = if k0 = k then some v0 else view hash s k := by
  have hcr := register_cache_of_wf s hwf
  have htr := register_table s
  by_cases hfull : (register_thread_cache s).cache.count = CACHE_SIZE
  · rw [add_entry_true_full hash s k0 v0 hfull]
    have hfc := flush_cache_wf hash true (register_thread_cache s).table
      (register_thread_cache s).cache (by rw [hcr]; exact hwf.cwf)
    unfold view
    dsimp only
    rw [pendingWrites_append _ k0 v0 (by rw [flush_cache_count, hfc.len]; simp [CACHE_SIZE])]
    rw [flush_cache_pending, List.nil_append]
    rw [lastWrite_cons, lastWrite_nil]
    rw [flush_cache_lookup hash _ _ (by rw [htr]; exact hlen) k]
    rw [hcr, htr]
    by_cases hk : k0 = k
    · simp [hk, Option.or]
    · simp [hk, view, Option.or]
  · rw [add_entry_true_notfull hash s k0 v0 hfull]
    have hcwf : CacheWF (register_thread_cache s).cache := by rw [hcr]; exact hwf.cwf
    have hlt : (register_thread_cache s).cache.count
        < (register_thread_cache s).cache.entries.length := by
      rw [hcwf.len]
      have hle := hcwf.count_le
      rw [show CACHE_SIZE = 4 from rfl] at hle hfull ⊢
      omega
    unfold view
    dsimp only
    rw [pendingWrites_append _ k0 v0 hlt]
    rw [lastWrite_concat]
    rw [hcr, htr]
    by_cases hk : k0 = k
    · simp [hk, Option.or]
    · simp [hk, view, Option.or]

theorem run_wf (hash : String → Nat) :
    ∀ (ws : List (String × Nat)) (s : TState), StateWF s → StateWF (run hash true s ws)
  | [], _, hwf => hwf
  | w :: ws, s, hwf => run_wf hash ws _ (add_entry_true_wf hash s w.1 w.2 hwf)

theorem run_table_length (hash : String → Nat) :
    ∀ (ws : List (String × Nat)) (s : TState),
      (run hash true s ws).table.length = s.table.length
  | [], _ => rfl
  | w :: ws, s => by
      show (run hash true (hash_table_v2_add_entry hash true s w.1 w.2) ws).table.length = _
      rw [run_table_length hash ws _, add_entry_table_length_true]

theorem view_run (hash : String → Nat) :
    ∀ (ws : List (String × Nat)) (s : TState), StateWF s → 0 < s.table.length →
      ∀ k : String,
      view hash (run hash true s ws) k = (lastWrite ws k).or (view hash s k)
  | [], s, _, _, k => by simp [run, lastWrite_nil, Option.none_or]
  | w :: ws, s, hwf, hlen, k => by
      show view hash (run hash true (hash_table_v2_add_entry hash true s w.1 w.2) ws) k = _
      rw [view_run hash ws _ (add_entry_true_wf hash s w.1 w.2 hwf)
          (by rw [add_entry_table_length_true]; exact hlen) k]
      rw [view_add hash s w.1 w.2 hwf hlen k]
      rw [lastWrite_cons, Option.or_assoc]
      by_cases hk : w.1 = k
      · simp [hk, Option.or]
      · simp [hk, Option.or]

/-! ### Read path lemmas -/

theorem pendingWrites_of_count_zero (c : thread_cache) (h : c.count = 0) :
    pendingWrites c = [] := by
  unfold pendingWrites
  rw [h, List.take_zero]
  rfl

theorem self_flush_table_length (hash : String → Nat) (a : Bool) (s : TState) :
    (self_flush hash a s).table.length = s.table.length := by
  unfold self_flush
  split
  · dsimp only
    rw [flush_cache_fst_length]
  · rfl

theorem quiescent_count_zero (s : TState) (hwf : StateWF s)
    (hd : ¬((s.registered && s.cache.dirty) = true)) : s.cache.count = 0 := by
  cases hr : s.registered with
  | false =>
      have hc := hwf.unreg hr
      rw [hc]
      rfl
  | true =>
      have hdf : s.cache.dirty = false := by
        cases hdd : s.cache.dirty
        · rfl
        · exact absurd (by rw [hr, hdd]; rfl) hd
      have hdi := hwf.cwf.dirty_iff
      rw [hdf] at hdi
      have h2 : ¬(s.cache.count ≠ 0) := by
        have := hdi.symm
        simpa [decide_eq_false_iff_not] using this
      omega

theorem self_flush_lookup (hash : String → Nat) (s : TState) (hwf : StateWF s)
    (hlen : 0 < s.table.length) (k : String) :
    table_lookup hash (self_flush hash true s).table k = view hash s k := by
  unfold self_flush
  by_cases hd : (s.registered && s.cache.dirty) = true
  · rw [if_pos hd]
    dsimp only
    rw [flush_cache_lookup hash s.table s.cache hlen k]
    rfl
  · rw [if_neg hd]
    have hp : pendingWrites s.cache = [] := pendingWrites_of_count_zero _ (quiescent_count_zero s hwf hd)
    unfold view
    rw [hp, lastWrite_nil, Option.none_or]

theorem self_flush_pending (hash : String → Nat) (s : TState) (hwf : StateWF s) :
    pendingWrites (self_flush hash true s).cache = [] := by
  unfold self_flush
  by_cases hd : (s.registered && s.cache.dirty) = true
  · rw [if_pos hd]
    dsimp only
    rw [flush_cache_pending]
  · rw [if_neg hd]
    exact pendingWrites_of_count_zero _ (quiescent_count_zero s hwf hd)

theorem get_value_eq_view (hash : String → Nat) (s : TState) (hwf : StateWF s)
    (hlen : 0 < s.table.length) (k : String) :
    (hash_table_v2_get_value hash true s k).1 = view hash s k := by
  show table_lookup hash (self_flush hash true s).table k = view hash s k
  exact self_flush_lookup hash s hwf hlen k

/-! ### Table membership utilities -/

theorem mem_bucket_flatten {ht : Table} {i : Nat} {e : list_entry}
    (he : e ∈ ht.getD i []) : e ∈ ht.flatten := by
  by_cases hi : i < ht.length
  · rw [List.getD_eq_getElem _ _ hi] at he
    exact List.mem_flatten.mpr ⟨ht[i], List.getElem_mem hi, he⟩
  · rw [List.getD_eq_default _ _ (Nat.le_of_not_lt hi)] at he
    cases he

theorem tableKeys_mem_iff {ht : Table} {k : String} :
    k ∈ tableKeys ht ↔ ∃ i, ∃ e ∈ ht.getD i [], e.key = k := by
  constructor
  · intro h
    obtain ⟨e, he, hk⟩ := List.mem_map.mp h
    obtain ⟨l, hl, hel⟩ := List.mem_flatten.mp he
    obtain ⟨i, hi, hil⟩ := List.mem_iff_getElem.mp hl
    refine ⟨i, e, ?_, hk⟩
    rw [List.getD_eq_getElem _ _ hi, hil]
    exact hel
  · rintro ⟨i, e, he, hk⟩
    exact List.mem_map.mpr ⟨e, mem_bucket_flatten he, hk⟩

theorem mem_tableKeys_set_elim {ht : Table} {i : Nat} {b2 : List list_entry} {k : String}
    (h : k ∈ tableKeys (ht.set i b2)) : k ∈ tableKeys ht ∨ k ∈ b2.map list_entry.key := by
  obtain ⟨e, he, hk⟩ := List.mem_map.mp h
  obtain ⟨l, hl, hel⟩ := List.mem_flatten.mp he
  rcases List.mem_or_eq_of_mem_set hl with h1 | h1
  · exact Or.inl (List.mem_map.mpr ⟨e, List.mem_flatten.mpr ⟨l, h1, hel⟩, hk⟩)
  · subst h1
    exact Or.inr (List.mem_map.mpr ⟨e, hel, hk⟩)

theorem mem_tableKeys_set_intro {ht : Table} {i : Nat} {b2 : List list_entry} {k : String}
    (hi : i < ht.length) (h : k ∈ b2.map list_entry.key) : k ∈ tableKeys (ht.set i b2) := by
  obtain ⟨e, he, hk⟩ := List.mem_map.mp h
  refine List.mem_map.mpr ⟨e, ?_, hk⟩
  refine List.mem_flatten.mpr ⟨b2, ?_, he⟩
  exact List.mem_iff_getElem.mpr ⟨i, by simpa using hi, List.getElem_set_self _⟩

/-! ### TableWF preservation -/

theorem flush_one_TableWF (hash : String → Nat) (a : Bool) (ht : Table) (ce : cache_entry)
    (hwf : TableWF hash ht) : TableWF hash (flush_one_entry hash a ht ce).1 := by
  rcases ce with ⟨ko, v0⟩
  cases ko with
  | none => exact hwf
  | some k0 =>
      rw [flush_one_some]
      cases hupd : slist_update_first (ht.getD (hash k0 % ht.length) []) k0 v0 with
      | some b2 =>
          have hne : ht.getD (hash k0 % ht.length) [] ≠ [] := by
            intro h0
            rw [h0] at hupd
            simp [slist_update_first] at hupd
          have hi0 : hash k0 % ht.length < ht.length := by
            by_contra hlt
            exact hne (List.getD_eq_default _ _ (Nat.le_of_not_lt hlt))
          obtain ⟨hlook, hkeys⟩ := slist_update_first_spec hupd
          intro i
          rw [List.length_set]
          by_cases hii : i = hash k0 % ht.length
          · subst hii
            rw [getD_set_self _ _ _ _ hi0]
            constructor
            · rw [hkeys]
              exact (hwf _).1
            · intro e he
              have hek : e.key ∈ (ht.getD (hash k0 % ht.length) []).map list_entry.key := by
                rw [← hkeys]
                exact List.mem_map.mpr ⟨e, he, rfl⟩
              obtain ⟨e2, he2, hk2⟩ := List.mem_map.mp hek
              rw [← hk2]
              exact (hwf _).2 e2 he2
          · rw [getD_set_ne _ _ _ _ _ (fun h => hii h.symm)]
            exact hwf i
      | none =>
          cases a with
          | false => exact hwf
          | true =>
              rcases Nat.eq_zero_or_pos ht.length with hz | hpos
              · have hnil : ht = [] := List.length_eq_zero.mp hz
                subst hnil
                exact hwf
              · have hi0 : hash k0 % ht.length < ht.length := Nat.mod_lt _ hpos
                show TableWF hash (List.set ht (hash k0 % ht.length)
                  ({ key := k0, value := v0 } :: ht.getD (hash k0 % ht.length) []))
                intro i
                rw [List.length_set]
                by_cases hii : i = hash k0 % ht.length
                · subst hii
                  rw [getD_set_self _ _ _ _ hi0]
                  constructor
                  · rw [List.map_cons, List.nodup_cons]
                    refine ⟨?_, (hwf _).1⟩
                    intro hmem
                    obtain ⟨e2, he2, hk2⟩ := List.mem_map.mp hmem
                    exact slist_update_first_eq_none.mp hupd e2 he2 hk2
                  · intro e he
                    rcases List.mem_cons.mp he with h1 | h1
                    · rw [h1]
                    · exact (hwf _).2 e h1
                · rw [getD_set_ne _ _ _ _ _ (fun h => hii h.symm)]
                  exact hwf i

theorem flush_loop_TableWF (hash : String → Nat) (a : Bool) :
    ∀ (ces : List cache_entry) (ht : Table), TableWF hash ht →
      TableWF hash (flush_loop hash a ht ces).1
  | [], _, hwf => hwf
  | ce :: rest, ht, hwf =>
      flush_loop_TableWF hash a rest _ (flush_one_TableWF hash a ht ce hwf)

theorem flush_cache_TableWF (hash : String → Nat) (a : Bool) (ht : Table)
    (c : thread_cache) (hwf : TableWF hash ht) :
    TableWF hash (flush_thread_cache hash a ht c).1 :=
  flush_loop_TableWF hash a _ ht hwf

theorem add_entry_TableWF (hash : String → Nat) (s : TState) (k0 : String) (v0 : Nat)
    (hwf : TableWF hash s.table) :
    TableWF hash (hash_table_v2_add_entry hash true s k0 v0).table := by
  by_cases hfull : (register_thread_cache s).cache.count = CACHE_SIZE
  · rw [add_entry_true_full hash s k0 v0 hfull]
    dsimp only
    refine flush_cache_TableWF hash true _ _ ?_
    rw [register_table]
    exact hwf
  · rw [add_entry_true_notfull hash s k0 v0 hfull]
    dsimp only
    rw [register_table]
    exact hwf

theorem run_TableWF (hash : String → Nat) :
    ∀ (ws : List (String × Nat)) (s : TState), TableWF hash s.table →
      TableWF hash (run hash true s ws).table
  | [], _, hwf => hwf
  | w :: ws, s, hwf =>
      run_TableWF hash ws _ (add_entry_TableWF hash s w.1 w.2 hwf)

theorem TableWF_replicate (hash : String → Nat) (capacity : Nat) :
    TableWF hash (List.replicate capacity ([] : List list_entry)) := by
  intro i
  constructor
  · by_cases hi : i < capacity
    · rw [List.getD_eq_getElem _ _ (by simpa using hi)]
      simp
    · rw [List.getD_eq_default _ _ (by simpa using Nat.le_of_not_lt hi)]
      simp
  · intro e he
    exfalso
    by_cases hi : i < capacity
    · rw [List.getD_eq_getElem _ _ (by simpa using hi)] at he
      simp at he
    · rw [List.getD_eq_default _ _ (by simpa using Nat.le_of_not_lt hi)] at he
      cases he

/-! ### Key containment through flushes -/

theorem flush_one_keys_elim (hash : String → Nat) (a : Bool) (ht : Table)
    (ce : cache_entry) (k : String)
    (h : k ∈ tableKeys (flush_one_entry hash a ht ce).1) :
    k ∈ tableKeys ht ∨ ce.key = some k := by
  rcases ce with ⟨ko, v0⟩
  cases ko with
  | none => exact Or.inl h
  | some k0 =>
      rw [flush_one_some] at h
      cases hupd : slist_update_first (ht.getD (hash k0 % ht.length) []) k0 v0 with
      | some b2 =>
          rw [hupd] at h
          obtain ⟨hlook, hkeys⟩ := slist_update_first_spec hupd
          rcases mem_tableKeys_set_elim h with h1 | h1
          · exact Or.inl h1
          · rw [hkeys] at h1
            obtain ⟨e, he, hk⟩ := List.mem_map.mp h1
            exact Or.inl (List.mem_map.mpr ⟨e, mem_bucket_flatten he, hk⟩)
      | none =>
          rw [hupd] at h
          cases a with
          | false => exact Or.inl h
          | true =>
              rcases mem_tableKeys_set_elim h with h1 | h1
              · exact Or.inl h1
              · rw [List.map_cons] at h1
                rcases List.mem_cons.mp h1 with h2 | h2
                · exact Or.inr (by rw [h2])
                · obtain ⟨e, he, hk⟩ := List.mem_map.mp h2
                  exact Or.inl (List.mem_map.mpr ⟨e, mem_bucket_flatten he, hk⟩)

theorem flush_one_keys_mono (hash : String → Nat) (a : Bool) (ht : Table)
    (ce : cache_entry) (k : String) (hlen : 0 < ht.length)
    (h : k ∈ tableKeys ht) : k ∈ tableKeys (flush_one_entry hash a ht ce).1 := by
  rcases ce with ⟨ko, v0⟩
  cases ko with
  | none => exact h
  | some k0 =>
      have hi0 : hash k0 % ht.length < ht.length := Nat.mod_lt _ hlen
      rw [flush_one_some]
      cases hupd : slist_update_first (ht.getD (hash k0 % ht.length) []) k0 v0 with
      | some b2 =>
          obtain ⟨hlook, hkeys⟩ := slist_update_first_spec hupd
          obtain ⟨j, e, he, hk⟩ := tableKeys_mem_iff.mp h
          by_cases hj : j = hash k0 % ht.length
          · subst hj
            have : e.key ∈ b2.map list_entry.key := by
              rw [hkeys]
              exact List.mem_map.mpr ⟨e, he, rfl⟩
            obtain ⟨e2, he2, hk2⟩ := List.mem_map.mp this
            exact mem_tableKeys_set_intro hi0 (List.mem_map.mpr ⟨e2, he2, hk2.trans hk⟩)
          · refine tableKeys_mem_iff.mpr ⟨j, e, ?_, hk⟩
            rw [getD_set_ne _ _ _ _ _ (fun hh => hj hh.symm)]
            exact he
      | none =>
          cases a with
          | false => exact h
          | true =>
              show k ∈ tableKeys (List.set ht (hash k0 % ht.length)
                ({ key := k0, value := v0 } :: ht.getD (hash k0 % ht.length) []))
              obtain ⟨j, e, he, hk⟩ := tableKeys_mem_iff.mp h
              by_cases hj : j = hash k0 % ht.length
              · subst hj
                exact mem_tableKeys_set_intro hi0
                  (List.mem_map.mpr ⟨e, List.mem_cons_of_mem _ he, hk⟩)
              · refine tableKeys_mem_iff.mpr ⟨j, e, ?_, hk⟩
                rw [getD_set_ne _ _ _ _ _ (fun hh => hj hh.symm)]
                exact he

theorem flush_one_keys_self (hash : String → Nat) (ht : Table) (k0 : String) (v0 : Nat)
    (hlen : 0 < ht.length) :
    k0 ∈ tableKeys (flush_one_entry hash true ht ⟨some k0, v0⟩).1 := by
  have hi0 : hash k0 % ht.length < ht.length := Nat.mod_lt _ hlen
  rw [flush_one_some]
  cases hupd : slist_update_first (ht.getD (hash k0 % ht.length) []) k0 v0 with
  | some b2 =>
      obtain ⟨hlook, hkeys⟩ := slist_update_first_spec hupd
      refine mem_tableKeys_set_intro hi0 ?_
      rw [hkeys]
      exact slist_update_first_mem hupd
  | none =>
      refine mem_tableKeys_set_intro hi0 ?_
      rw [List.map_cons]
      exact List.mem_cons_self _ _

theorem flush_loop_keys_mono (hash : String → Nat) (a : Bool) :
    ∀ (ces : List cache_entry) (ht : Table) (k : String), 0 < ht.length →
      k ∈ tableKeys ht → k ∈ tableKeys (flush_loop hash a ht ces).1
  | [], _, _, _, h => h
  | ce :: rest, ht, k, hlen, h =>
      flush_loop_keys_mono hash a rest _ k (by rw [flush_one_length]; exact hlen)
        (flush_one_keys_mono hash a ht ce k hlen h)

theorem flush_loop_keys_elim (hash : String → Nat) (a : Bool) :
    ∀ (ces : List cache_entry) (ht : Table) (k : String),
      k ∈ tableKeys (flush_loop hash a ht ces).1 →
      k ∈ tableKeys ht ∨ ∃ ce ∈ ces, ce.key = some k
  | [], _, _, h => Or.inl h
  | ce :: rest, ht, k, h => by
      rcases flush_loop_keys_elim hash a rest (flush_one_entry hash a ht ce).1 k h
          with h2 | ⟨ce2, hce2, hk2⟩
      · rcases flush_one_keys_elim hash a ht ce k h2 with h3 | h3
        · exact Or.inl h3
        · exact Or.inr ⟨ce, List.mem_cons_self _ _, h3⟩
      · exact Or.inr ⟨ce2, List.mem_cons_of_mem _ hce2, hk2⟩

theorem flush_loop_keys_pending (hash : String → Nat) :
    ∀ (ces : List cache_entry) (ht : Table) (k : String) (v : Nat), 0 < ht.length →
      (k, v) ∈ ces.filterMap cacheKV → k ∈ tableKeys (flush_loop hash true ht ces).1
  | [], _, _, _, _, h => by simp at h
  | ce :: rest, ht, k, v, hlen, h => by
      rcases ce with ⟨ko, vv⟩
      cases ko with
      | none =>
          rw [List.filterMap_cons] at h
          exact flush_loop_keys_pending hash rest ht k v hlen (by simpa [cacheKV] using h)
      | some k0 =>
          rw [List.filterMap_cons] at h
          have hck : cacheKV ⟨some k0, vv⟩ = some (k0, vv) := rfl
          rw [hck] at h
          rcases List.mem_cons.mp h with h1 | h1
          · have hk : k = k0 := by
              have := congrArg Prod.fst h1
              simpa using this
            subst hk
            exact flush_loop_keys_mono hash true rest _ k
              (by rw [flush_one_length]; exact hlen)
              (flush_one_keys_self hash ht k vv hlen)
          · exact flush_loop_keys_pending hash rest _ k v
              (by rw [flush_one_length]; exact hlen) h1

theorem flush_cache_keys_mono (hash : String → Nat) (a : Bool) (ht : Table)
    (c : thread_cache) (k : String) (hlen : 0 < ht.length)
    (h : k ∈ tableKeys ht) : k ∈ tableKeys (flush_thread_cache hash a ht c).1 :=
  flush_loop_keys_mono hash a _ ht k hlen h

theorem flush_cache_keys_elim (hash : String → Nat) (a : Bool) (ht : Table)
    (c : thread_cache) (k : String)
    (h : k ∈ tableKeys (flush_thread_cache hash a ht c).1) :
    k ∈ tableKeys ht ∨ ∃ v, (k, v) ∈ pendingWrites c := by
  rcases flush_loop_keys_elim hash a (c.entries.take c.count) ht k h with h1 | ⟨ce, hce, hk⟩
  · exact Or.inl h1
  · refine Or.inr ⟨ce.value, ?_⟩
    refine List.mem_filterMap.mpr ⟨ce, hce, ?_⟩
    simp [cacheKV, hk]

theorem flush_cache_keys_pending (hash : String → Nat) (ht : Table) (c : thread_cache)
    (k : String) (v : Nat) (hlen : 0 < ht.length) (h : (k, v) ∈ pendingWrites c) :
    k ∈ tableKeys (flush_thread_cache hash true ht c).1 :=
  flush_loop_keys_pending hash (c.entries.take c.count) ht k v hlen h

/-! ### Scan lemmas -/

theorem scan_bucket_complete :
    ∀ (b : List list_entry) (k : String) (it m : Nat), b.length + it ≤ m →
      scan_bucket b k it m = (slist_lookup b k).isSome
  | [], _, _, _, _ => rfl
  | le :: rest, k, it, m, h => by
      rw [List.length_cons] at h
      have h1 : ¬(it + 1 > m) := by omega
      simp only [scan_bucket, if_neg h1]
      by_cases hk : le.key = k
      · simp [slist_lookup, hk]
      · simp only [slist_lookup, if_neg hk]
        exact scan_bucket_complete rest k (it + 1) m (by omega)

theorem scan_bucket_take_none :
    ∀ (b : List list_entry) (k : String) (it m : Nat),
      (∀ e ∈ b.take (m - it), e.key ≠ k) → scan_bucket b k it m = false
  | [], _, _, _, _ => rfl
  | le :: rest, k, it, m, h => by
      by_cases h1 : it + 1 > m
      · simp [scan_bucket, h1]
      · have hmi : 0 < m - it := by omega
        have hhead : le.key ≠ k := by
          apply h le
          rw [List.take_cons hmi]
          exact List.mem_cons_self _ _
        simp only [scan_bucket, if_neg h1, if_neg hhead]
        apply scan_bucket_take_none rest k (it + 1) m
        intro e he
        apply h e
        rw [List.take_cons hmi]
        apply List.mem_cons_of_mem
        have hm : m - (it + 1) = m - it - 1 := by omega
        rw [← hm]
        exact he

theorem scan_bucket_not_mem :
    ∀ (b : List list_entry) (k : String) (it m : Nat),
      (∀ e ∈ b, e.key ≠ k) → scan_bucket b k it m = false
  | [], _, _, _, _ => rfl
  | le :: rest, k, it, m, h => by
      by_cases h1 : it + 1 > m
      · simp [scan_bucket, h1]
      · simp only [scan_bucket, if_neg h1, if_neg (h le (List.mem_cons_self _ _))]
        exact scan_bucket_not_mem rest k (it + 1) m
          (fun e he => h e (List.mem_cons_of_mem _ he))

theorem slist_lookup_isSome {b : List list_entry} {k : String} :
    (slist_lookup b k).isSome = true ↔ k ∈ b.map list_entry.key := by
  induction b with
  | nil => simp [slist_lookup]
  | cons le rest ih =>
      by_cases hk : le.key = k
      · simp [slist_lookup, hk]
      · have hk2 : ¬(k = le.key) := fun h => hk h.symm
        simp [slist_lookup, hk, hk2, ih]

/-! ### Written keys bound the state -/

theorem add_entry_stateKeys (hash : String → Nat) (s : TState) (k0 : String) (v0 : Nat)
    (hwf : StateWF s) (_hlen : 0 < s.table.length) (k : String)
    (h : stateKeys (hash_table_v2_add_entry hash true s k0 v0) k) :
    k = k0 ∨ stateKeys s k := by
  have hcr := register_cache_of_wf s hwf
  have htr := register_table s
  by_cases hfull : (register_thread_cache s).cache.count = CACHE_SIZE
  · rw [add_entry_true_full hash s k0 v0 hfull] at h
    have hfc := flush_cache_wf hash true (register_thread_cache s).table
      (register_thread_cache s).cache (by rw [hcr]; exact hwf.cwf)
    unfold stateKeys at h
    dsimp only at h
    rcases h with h | ⟨v, hv⟩
    · rcases flush_cache_keys_elim hash true _ _ k h with h1 | ⟨v, hv⟩
      · rw [htr] at h1
        exact Or.inr (Or.inl h1)
      · rw [hcr] at hv
        exact Or.inr (Or.inr ⟨v, hv⟩)
    · rw [pendingWrites_append _ k0 v0
          (by rw [flush_cache_count, hfc.len]; simp [CACHE_SIZE])] at hv
      rw [flush_cache_pending, List.nil_append] at hv
      rcases List.mem_singleton.mp hv with h2
      exact Or.inl (by simpa using congrArg Prod.fst h2)
  · rw [add_entry_true_notfull hash s k0 v0 hfull] at h
    have hcwf : CacheWF (register_thread_cache s).cache := by rw [hcr]; exact hwf.cwf
    have hlt : (register_thread_cache s).cache.count
        < (register_thread_cache s).cache.entries.length := by
      rw [hcwf.len]
      have hle := hcwf.count_le
      rw [show CACHE_SIZE = 4 from rfl] at hle hfull ⊢
      omega
    unfold stateKeys at h
    dsimp only at h
    rcases h with h | ⟨v, hv⟩
    · rw [htr] at h
      exact Or.inr (Or.inl h)
    · rw [pendingWrites_append _ k0 v0 hlt] at hv
      rcases List.mem_append.mp hv with h1 | h1
      · rw [hcr] at h1
        exact Or.inr (Or.inr ⟨v, h1⟩)
      · exact Or.inl (by simpa using congrArg Prod.fst (List.mem_singleton.mp h1))

theorem run_stateKeys (hash : String → Nat) :
    ∀ (ws : List (String × Nat)) (s : TState), StateWF s → 0 < s.table.length →
      ∀ k : String, stateKeys (run hash true s ws) k →
      k ∈ ws.map Prod.fst ∨ stateKeys s k
  | [], _, _, _, _, h => Or.inr h
  | w :: ws, s, hwf, hlen, k, h => by
      rcases run_stateKeys hash ws _ (add_entry_true_wf hash s w.1 w.2 hwf)
          (by rw [add_entry_table_length_true]; exact hlen) k h with h1 | h1
      · rw [List.map_cons]
        exact Or.inl (List.mem_cons_of_mem _ h1)
      · rcases add_entry_stateKeys hash s w.1 w.2 hwf hlen k h1 with h2 | h2
        · rw [List.map_cons, h2]
          exact Or.inl (List.mem_cons_self _ _)
        · exact Or.inr h2

theorem stateKeys_initState (capacity : Nat) (k : String) :
    ¬stateKeys (initState capacity) k := by
  rintro (h | ⟨v, hv⟩)
  · have htab : (initState capacity).table = List.replicate capacity [] := rfl
    rw [htab] at h
    obtain ⟨i, e, he, _⟩ := tableKeys_mem_iff.mp h
    by_cases hi : i < capacity
    · rw [List.getD_eq_getElem _ _ (by simpa using hi)] at he
      simp at he
    · rw [List.getD_eq_default _ _ (by simpa using Nat.le_of_not_lt hi)] at he
      cases he
  · simp [initState, pendingWrites, initCache] at hv

theorem nodup_subset_length_le_dedup (l1 l2 : List String) (h1 : l1.Nodup)
    (h2 : ∀ x ∈ l1, x ∈ l2) : l1.length ≤ l2.dedup.length := by
  calc l1.length = l1.toFinset.card := (List.toFinset_card_of_nodup h1).symm
    _ ≤ l2.toFinset.card := Finset.card_le_card (fun x hx => by
        rw [List.mem_toFinset] at hx ⊢
        exact h2 x hx)
    _ = l2.dedup.length := List.card_toFinset l2

/-! ### Reachable tables only hold written keys -/

theorem tableKeys_replicate (capacity : Nat) (k : String)
    (h : k ∈ tableKeys (List.replicate capacity ([] : List list_entry))) : False := by
  obtain ⟨i, e, he, _⟩ := tableKeys_mem_iff.mp h
  by_cases hi : i < capacity
  · rw [List.getD_eq_getElem _ _ (by simpa using hi)] at he
    simp at he
  · rw [List.getD_eq_default _ _ (by simpa using Nat.le_of_not_lt hi)] at he
    cases he

theorem table_reach_keys (hash : String → Nat) (capacity : Nat) :
    ∀ {t : Table} {W : List String}, table_reach hash capacity t W →
      ∀ k : String, k ∈ tableKeys t → k ∈ W := by
  intro t W h
  induction h with
  | init =>
      intro k hk
      exact absurd hk (tableKeys_replicate capacity k)
  | step a k0 v0 hre ih =>
      intro k hk
      unfold bucket_upsert at hk
      rcases flush_one_keys_elim _ _ _ _ k hk with h1 | h1
      · exact List.mem_cons_of_mem _ (ih k h1)
      · injection h1 with h1
        rw [← h1]
        exact List.mem_cons_self _ _

/-- C5: for every key that was never written to the table (neither flushed
into any bucket — the table is reachable with write-key trace `W` — nor
buffered in the calling thread's cache), `hash_table_v2_contains` returns
`false` (a plain boolean, it has no error channel) and the spec-modelled
`hash_table_v2_get_value` returns `none` (the `NotFound` error), without
crashing or asserting; this holds for any allocation environment. -/
theorem C5_unwritten_keys (hash : String → Nat) (allocOk : Bool) (capacity : Nat)
    (t : Table) (W : List String) (c : thread_cache) (reg : Bool) (k : String)
    (hre : table_reach hash capacity t W)
    (hpend : k ∉ (pendingWrites c).map Prod.fst)
    (hk : k ∉ W) :
    (hash_table_v2_contains hash allocOk ⟨t, c, reg⟩ k).1 = false
    ∧ (hash_table_v2_get_value hash allocOk ⟨t, c, reg⟩ k).1 = none := by
  have hnk : ∀ e ∈ (self_flush hash allocOk ⟨t, c, reg⟩).table.getD
      (hash k % (self_flush hash allocOk ⟨t, c, reg⟩).table.length) [], e.key ≠ k := by
    intro e he hek
    have hmem : k ∈ tableKeys (self_flush hash allocOk ⟨t, c, reg⟩).table :=
      tableKeys_mem_iff.mpr ⟨_, e, he, hek⟩
    have hsplit : k ∈ tableKeys t ∨ ∃ v, (k, v) ∈ pendingWrites c := by
      unfold self_flush at hmem
      by_cases hd : ((⟨t, c, reg⟩ : TState).registered
          && (⟨t, c, reg⟩ : TState).cache.dirty) = true
      · rw [if_pos hd] at hmem
        dsimp only at hmem
        exact flush_cache_keys_elim hash allocOk t c k hmem
      · rw [if_neg hd] at hmem
        exact Or.inl hmem
    rcases hsplit with h1 | ⟨v, hv⟩
    · exact hk (table_reach_keys hash capacity hre k h1)
    · exact hpend (List.mem_map.mpr ⟨(k, v), hv, rfl⟩)
  constructor
  · exact scan_bucket_not_mem _ k 0 10000 hnk
  · exact slist_lookup_eq_none hnk

/-- Witness for C5 at a concrete reachable table, cache and key. -/
theorem C5_unwritten_keys_witness :
    (hash_table_v2_contains (fun s => s.length) true
        ⟨bucket_upsert (fun s => s.length) true (List.replicate 2 []) "a" 1,
         mkCache2 "c" "d" 3 4, true⟩ "zz").1 = false
    ∧ (hash_table_v2_get_value (fun s => s.length) true
        ⟨bucket_upsert (fun s => s.length) true (List.replicate 2 []) "a" 1,
         mkCache2 "c" "d" 3 4, true⟩ "zz").1 = none :=
  C5_unwritten_keys (fun s => s.length) true 2 _ ["a"] (mkCache2 "c" "d" 3 4) true "zz"
    (table_reach.step true "a" 1 table_reach.init)
    (by decide) (by decide)

/-- C10 (implicit claim): `hash_table_v2_contains` examines at most 10000
entries of the target bucket; whenever the calling thread's cache is clean
(so the self-flush does not change the table) and the matching entry lies
beyond the first 10000 nodes of its bucket's list, `contains` returns
`false` even though the key is present in the table. -/
theorem C10_bounded_scan (hash : String → Nat) (allocOk : Bool) (s : TState) (k : String)
    (hclean : (s.registered && s.cache.dirty) = false)
    (habsent : ∀ e ∈ (s.table.getD (hash k % s.table.length) []).take 10000, e.key ≠ k)
    (_hpresent : k ∈ (s.table.getD (hash k % s.table.length) []).map list_entry.key) :
    (hash_table_v2_contains hash allocOk s k).1 = false := by
  have hs : self_flush hash allocOk s = s := by
    unfold self_flush
    simp [hclean]
  show scan_bucket ((self_flush hash allocOk s).table.getD
      (hash k % (self_flush hash allocOk s).table.length) []) k 0 10000 = false
  rw [hs]
  exact scan_bucket_take_none _ k 0 10000 (fun e he => habsent e he)

/-- Witness for C10: one bucket holding 10000 non-matching entries followed by
the matching one; `contains` misses it. -/
theorem C10_bounded_scan_witness :
    ((c10state.registered && c10state.cache.dirty) = false
      ∧ (∀ e ∈ (c10state.table.getD ((fun (_ : String) => 0) "b" % c10state.table.length)
            []).take 10000, e.key ≠ "b")
      ∧ "b" ∈ ((c10state.table.getD ((fun (_ : String) => 0) "b" % c10state.table.length)
            []).map list_entry.key))
    ∧ (hash_table_v2_contains (fun _ => 0) true c10state "b").1 = false := by
  have hbucket : c10state.table.getD ((fun (_ : String) => 0) "b" % c10state.table.length) []
      = c10bucket := rfl
  have h1 : (c10state.registered && c10state.cache.dirty) = false := rfl
  have htake : c10bucket.take 10000 = List.replicate 10000 ⟨"a", 0⟩ := by
    have h := List.take_left (List.replicate 10000 (⟨"a", 0⟩ : list_entry)) [⟨"b", 5⟩]
    rw [List.length_replicate] at h
    exact h
  have h2 : ∀ e ∈ (c10state.table.getD ((fun (_ : String) => 0) "b" % c10state.table.length)
      []).take 10000, e.key ≠ "b" := by
    rw [hbucket, htake]
    intro e he
    rw [(List.mem_replicate.mp he).2]
    decide
  have h3 : "b" ∈ ((c10state.table.getD ((fun (_ : String) => 0) "b" % c10state.table.length)
      []).map list_entry.key) := by
    rw [hbucket]
    rw [show c10bucket = List.replicate 10000 (⟨"a", 0⟩ : list_entry)
        ++ ([⟨"b", 5⟩] : List list_entry) from rfl]
    rw [List.map_append]
    exact List.mem_append.mpr (Or.inr (by simp))
  exact ⟨⟨h1, h2, h3⟩, C10_bounded_scan (fun _ => 0) true c10state "b" h1 h2 h3⟩

/-- C2: the flush protocol processes the buffered writes in their original
insertion order (`flush_thread_cache` is definitionally the in-order fold of
the per-entry step over the live slot prefix), and each step is an upsert
under the target bucket's lock: if the key is present the existing Entry's
value is overwritten and the cache's key copy is released (the slot is set to
`NULL`); if absent the cache's owned key itself is moved into a newly
allocated Entry pushed at the bucket list's head (the slot keeps its
pointer).  Consequently a flush containing several writes to the same key
leaves that key mapped to the value of the last such write in insertion
order. -/
theorem C2_flush_order_upsert (hash : String → Nat) (ht : Table) (c : thread_cache)
    (hlen : 0 < ht.length) :
    (∀ k : String,
        table_lookup hash (flush_thread_cache hash true ht c).1 k
          = (lastWrite (pendingWrites c) k).or (table_lookup hash ht k))
    ∧ (∀ (ht2 : Table) (k0 : String) (v0 : Nat) (b2 : List list_entry),
        slist_update_first (ht2.getD (hash k0 % ht2.length) []) k0 v0 = some b2 →
          flush_one_entry hash true ht2 ⟨some k0, v0⟩
            = (ht2.set (hash k0 % ht2.length) b2, ⟨none, v0⟩))
    ∧ (∀ (ht2 : Table) (k0 : String) (v0 : Nat),
        slist_update_first (ht2.getD (hash k0 % ht2.length) []) k0 v0 = none →
          flush_one_entry hash true ht2 ⟨some k0, v0⟩
            = (ht2.set (hash k0 % ht2.length)
                ({ key := k0, value := v0 } :: ht2.getD (hash k0 % ht2.length) []),
               ⟨some k0, v0⟩)) := by
  refine ⟨fun k => flush_cache_lookup hash ht c hlen k, ?_, ?_⟩
  · intro ht2 k0 v0 b2 h
    rw [flush_one_some, h]
  · intro ht2 k0 v0 h
    rw [flush_one_some, h]
    rfl

/-- Witness for C2: flushing two buffered writes to the same key "x" (values
1 then 2) leaves "x" mapped to 2, the later write in insertion order. -/
theorem C2_flush_order_upsert_witness :
    0 < ([[]] : Table).length
    ∧ table_lookup (fun _ => 0)
        (flush_thread_cache (fun _ => 0) true [[]] (mkCache2 "x" "x" 1 2)).1 "x"
        = (lastWrite (pendingWrites (mkCache2 "x" "x" 1 2)) "x").or
            (table_lookup (fun _ => 0) [[]] "x")
    ∧ (lastWrite (pendingWrites (mkCache2 "x" "x" 1 2)) "x").or
        (table_lookup (fun _ => 0) [[]] "x") = some 2 :=
  ⟨by decide,
   (C2_flush_order_upsert (fun _ => 0) [[]] (mkCache2 "x" "x" 1 2) (by decide)).1 "x",
   by decide⟩

/-- C3 counterexample: flushing a cache holding the single fresh write
`("k", 1)` takes the absent branch — ownership of the key string passes to
the newly created bucket Entry — yet the cache slot is NOT cleared: after
the flush, slot 0 still holds `some "k"` while the bucket Entry holds the
same key.  This refutes the claim's assertion that "the cache slot's key
pointer is cleared exactly when ownership has passed to ... a bucket Entry"
(and, at the raw-slot level, that no key is referenced by both): the source
clears the slot only in the overwrite and allocation-failure branches. -/
theorem C3_counterexample :
    (flush_thread_cache (fun _ => 0) true [[]] c3cache).1 = [[⟨"k", 1⟩]]
    ∧ (flush_thread_cache (fun _ => 0) true [[]] c3cache).2.entries.getD 0 ⟨none, 0⟩
        = ⟨some "k", 1⟩
    ∧ (flush_thread_cache (fun _ => 0) true [[]] c3cache).2.count = 0 := by
  decide

/-- C3 amended: the exclusive-ownership invariant holds for live references:
after a flush completes, no CachedWrite is pending (count = 0, so the live
prefix is empty) and every key that was buffered is owned by a bucket Entry;
per step, the slot's key pointer is cleared precisely in the overwrite
branch (where the cache's copy is released in favour of the Entry's own
key), while in the move branch the slot retains a stale pointer that is dead
because it lies beyond count. -/
theorem C3_amended_ownership (hash : String → Nat) (ht : Table) (c : thread_cache)
    (hlen : 0 < ht.length) :
    pendingWrites (flush_thread_cache hash true ht c).2 = []
    ∧ (flush_thread_cache hash true ht c).2.count = 0
    ∧ (∀ p ∈ pendingWrites c, p.1 ∈ tableKeys (flush_thread_cache hash true ht c).1)
    ∧ (∀ (ht2 : Table) (k0 : String) (v0 : Nat),
        ((flush_one_entry hash true ht2 ⟨some k0, v0⟩).2.key = none
          ↔ (slist_update_first (ht2.getD (hash k0 % ht2.length) []) k0 v0).isSome
              = true)) := by
  refine ⟨flush_cache_pending hash true ht c, flush_cache_count hash true ht c, ?_, ?_⟩
  · intro p hp
    exact flush_cache_keys_pending hash ht c p.1 p.2 hlen (by rw [Prod.mk.eta]; exact hp)
  · intro ht2 k0 v0
    rw [flush_one_some]
    cases h : slist_update_first (ht2.getD (hash k0 % ht2.length) []) k0 v0 with
    | some b2 => simp
    | none => simp

/-- Witness for C3's amended theorem on the concrete one-write cache. -/
theorem C3_amended_ownership_witness :
    0 < ([[]] : Table).length
    ∧ pendingWrites (flush_thread_cache (fun _ => 0) true [[]] c3cache).2 = []
    ∧ "k" ∈ tableKeys (flush_thread_cache (fun _ => 0) true [[]] c3cache).1 :=
  ⟨by decide,
   (C3_amended_ownership (fun _ => 0) [[]] c3cache (by decide)).1,
   (C3_amended_ownership (fun _ => 0) [[]] c3cache (by decide)).2.2.1 ("k", 1) (by decide)⟩

/-- C4 counterexample: when allocation of the key copy fails (`strdup`
returning NULL, modelled by `allocOk = false`), `hash_table_v2_add_entry`
returns with the state exactly as it was before the call.  The C function
returns `void`: the post-state is the caller's entire observation, and it
carries no error indication whatsoever — the write is lost silently,
refuting the claim that "an error is signaled to the caller". -/
theorem C4_counterexample :
    hash_table_v2_add_entry (fun _ => 0) false c4state "a" 1 = c4state
    ∧ pendingWrites (hash_table_v2_add_entry (fun _ => 0) false c4state "a" 1).cache
        = [] := by
  decide

/-- C4 amended: `add_entry` always buffers the write except when the key-copy
allocation fails, in which case exactly that one write is dropped silently —
the function returns `void`, so no error is signaled — and the table is
untouched (the failure is not fatal: the state is exactly as before the
call). -/
theorem C4_amended_error_signaling (hash : String → Nat) (s : TState) (k : String)
    (v : Nat) (hreg : s.registered = true) (hnotfull : s.cache.count < CACHE_SIZE)
    (hlen : s.cache.entries.length = CACHE_SIZE) :
    hash_table_v2_add_entry hash false s k v = s
    ∧ (pendingWrites (hash_table_v2_add_entry hash true s k v).cache).getLast?
        = some (k, v) := by
  have hrs : register_thread_cache s = s := by
    unfold register_thread_cache
    rw [hreg]
    rfl
  constructor
  · unfold hash_table_v2_add_entry
    simp only [hrs, if_neg (Nat.ne_of_lt hnotfull)]
    rfl
  · rw [add_entry_true_notfull hash s k v
      (by rw [hrs]; exact Nat.ne_of_lt hnotfull)]
    dsimp only
    rw [hrs]
    rw [pendingWrites_append _ k v (by rw [hlen]; exact hnotfull)]
    exact List.getLast?_concat _

/-- Witness for C4's amended theorem on a registered, non-full state. -/
theorem C4_amended_error_signaling_witness :
    (c4state.registered = true ∧ c4state.cache.count < CACHE_SIZE
      ∧ c4state.cache.entries.length = CACHE_SIZE)
    ∧ hash_table_v2_add_entry (fun _ => 0) false c4state "a" 1 = c4state
    ∧ (pendingWrites (hash_table_v2_add_entry (fun _ => 0) true c4state "a" 1).cache).getLast?
        = some ("a", 1) :=
  ⟨⟨rfl, by decide, rfl⟩,
   (C4_amended_error_signaling (fun _ => 0) c4state "a" 1 rfl (by decide) rfl).1,
   (C4_amended_error_signaling (fun _ => 0) c4state "a" 1 rfl (by decide) rfl).2⟩

/-- C8: a full cache never surfaces a failure to the caller of `add_entry`:
with allocation succeeding, after `add_entry` the new write is the last
buffered write of the calling thread's cache and the live count is between 1
and `CACHE_SIZE`; moreover when the cache was exactly full, the cache was
first flushed into the table (the buffered writes moved to the bucket store)
and the new write is buffered with count 1. -/
theorem C8_full_never_surfaced (hash : String → Nat) (s : TState) (k : String) (v : Nat)
    (hwf : StateWF s) :
    (hash_table_v2_add_entry hash true s k v).cache.count ≤ CACHE_SIZE
    ∧ 1 ≤ (hash_table_v2_add_entry hash true s k v).cache.count
    ∧ (pendingWrites (hash_table_v2_add_entry hash true s k v).cache).getLast?
        = some (k, v)
    ∧ (s.registered = true → s.cache.count = CACHE_SIZE →
        (hash_table_v2_add_entry hash true s k v).table
            = (flush_thread_cache hash true s.table s.cache).1
          ∧ (hash_table_v2_add_entry hash true s k v).cache.count = 1) := by
  have hcr := register_cache_of_wf s hwf
  by_cases hfull : (register_thread_cache s).cache.count = CACHE_SIZE
  · rw [add_entry_true_full hash s k v hfull]
    have hfc := flush_cache_wf hash true (register_thread_cache s).table
      (register_thread_cache s).cache (by rw [hcr]; exact hwf.cwf)
    have hcount := flush_cache_count hash true (register_thread_cache s).table
      (register_thread_cache s).cache
    have hrs : ∀ hreg : s.registered = true, register_thread_cache s = s := by
      intro hreg
      unfold register_thread_cache
      rw [hreg]
      rfl
    refine ⟨?_, ?_, ?_, ?_⟩
    · dsimp only
      rw [hcount]
      decide
    · dsimp only
      rw [hcount]
    · dsimp only
      rw [pendingWrites_append _ k v (by rw [hcount, hfc.len]; simp [CACHE_SIZE])]
      exact List.getLast?_concat _
    · intro hreg _
      constructor
      · dsimp only
        rw [hrs hreg]
      · dsimp only
        rw [hcount]
  · rw [add_entry_true_notfull hash s k v hfull]
    have hcwf : CacheWF (register_thread_cache s).cache := by rw [hcr]; exact hwf.cwf
    have hlt : (register_thread_cache s).cache.count
        < (register_thread_cache s).cache.entries.length := by
      rw [hcwf.len]
      have hle := hcwf.count_le
      rw [show CACHE_SIZE = 4 from rfl] at hle hfull ⊢
      omega
    refine ⟨?_, ?_, ?_, ?_⟩
    · dsimp only
      rw [hcwf.len] at hlt
      rw [show CACHE_SIZE = 4 from rfl] at hlt ⊢
      omega
    · dsimp only
      omega
    · dsimp only
      rw [pendingWrites_append _ k v hlt]
      exact List.getLast?_concat _
    · intro hreg hcount
      exfalso
      apply hfull
      rw [hcr, hcount]

/-- Witness for C8 on a registered thread whose cache is exactly full. -/
theorem C8_full_never_surfaced_witness :
    (c8state.registered = true ∧ c8state.cache.count = CACHE_SIZE)
    ∧ (pendingWrites (hash_table_v2_add_entry (fun _ => 0) true c8state "e" 5).cache).getLast?
        = some ("e", 5)
    ∧ ((hash_table_v2_add_entry (fun _ => 0) true c8state "e" 5).table
          = (flush_thread_cache (fun _ => 0) true c8state.table c8state.cache).1
        ∧ (hash_table_v2_add_entry (fun _ => 0) true c8state "e" 5).cache.count = 1) :=
  ⟨⟨rfl, rfl⟩,
   (C8_full_never_surfaced (fun _ => 0) c8state "e" 5
     ⟨⟨rfl, by decide, by decide, rfl⟩, fun h => by cases h⟩).2.2.1,
   (C8_full_never_surfaced (fun _ => 0) c8state "e" 5
     ⟨⟨rfl, by decide, by decide, rfl⟩, fun h => by cases h⟩).2.2.2 rfl rfl⟩

/-! ### Per-key uniqueness -/

theorem table_reach_TableWF (hash : String → Nat) (capacity : Nat) :
    ∀ {t : Table} {W : List String}, table_reach hash capacity t W → TableWF hash t := by
  intro t W h
  induction h with
  | init => exact TableWF_replicate hash capacity
  | step a k v _ ih => exact flush_one_TableWF hash a _ _ ih

theorem buckets_flatten_nodup (g : String → Nat) :
    ∀ (bs : List (List list_entry)) (base : Nat),
      (∀ j, ∀ e ∈ bs.getD j [], g e.key = base + j) →
      (∀ j, ((bs.getD j []).map list_entry.key).Nodup) →
      ((bs.flatten.map list_entry.key).Nodup)
  | [], _, _, _ => by simp
  | b :: rest, base, hplace, hnodup => by
      rw [List.flatten_cons, List.map_append, List.nodup_append]
      refine ⟨hnodup 0, buckets_flatten_nodup g rest (base + 1) ?_ ?_, ?_⟩
      · intro j e he
        have h2 := hplace (j + 1) e (by rw [List.getD_cons_succ]; exact he)
        omega
      · intro j
        have h2 := hnodup (j + 1)
        rw [List.getD_cons_succ] at h2
        exact h2
      · intro k hkb hkr
        obtain ⟨e, he, hke⟩ := List.mem_map.mp hkb
        have h1 : g k = base + 0 := by
          rw [← hke]
          exact hplace 0 e he
        obtain ⟨e2, he2, hke2⟩ := List.mem_map.mp hkr
        obtain ⟨l, hl, hel⟩ := List.mem_flatten.mp he2
        obtain ⟨j, hj, hlj⟩ := List.mem_iff_getElem.mp hl
        have h2 : g k = base + (j + 1) := by
          rw [← hke2]
          apply hplace (j + 1) e2
          rw [List.getD_cons_succ, List.getD_eq_getElem _ _ hj, hlj]
          exact hel
        omega

/-- C6: after any sequence of add_entry and flush operations by any number of
threads — every bucket-store mutation in the source is one `bucket_upsert`
step executed under the target bucket's mutex, so the reachable tables are
exactly `table_reach` — every bucket's list holds at most one Entry per key,
and globally each key appears at most once in the entry set drained at
destroy (the flattened bucket store). -/
theorem C6_per_key_uniqueness (hash : String → Nat) (capacity : Nat) (t : Table)
    (W : List String) (hre : table_reach hash capacity t W) :
    (∀ i, ((t.getD i []).map list_entry.key).Nodup)
    ∧ ((t.flatten.map list_entry.key).Nodup) := by
  have hwf := table_reach_TableWF hash capacity hre
  refine ⟨fun i => (hwf i).1, ?_⟩
  exact buckets_flatten_nodup (fun k => hash k % t.length) t 0
    (fun j e he => by simpa using (hwf j).2 e he)
    (fun j => (hwf j).1)

/-- Witness for C6: two upserts (same key twice, then a fresh key) on a
2-bucket table reach a table with globally unique keys. -/
theorem C6_per_key_uniqueness_witness :
    (((bucket_upsert (fun s => s.length) true
        (bucket_upsert (fun s => s.length) true
          (bucket_upsert (fun s => s.length) true (List.replicate 2 []) "a" 1)
          "a" 7)
        "bc" 2).flatten.map list_entry.key).Nodup) :=
  (C6_per_key_uniqueness (fun s => s.length) 2 _ ["bc", "a", "a"]
    (table_reach.step true "bc" 2
      (table_reach.step true "a" 7
        (table_reach.step true "a" 1 table_reach.init)))).2

/-! ### Flush-all lemmas -/

theorem flush_caches_loop_fst_length (hash : String → Nat) (a : Bool) :
    ∀ (cs : List thread_cache) (ht : Table),
      ((flush_caches_loop hash a ht cs).1).length = ht.length
  | [], _ => rfl
  | c :: rest, ht => by
      show ((flush_caches_loop hash a (flush_thread_cache hash a ht c).1 rest).1).length = _
      rw [flush_caches_loop_fst_length hash a rest _, flush_cache_fst_length]

theorem flush_caches_loop_keys_mono (hash : String → Nat) (a : Bool) :
    ∀ (cs : List thread_cache) (ht : Table) (k : String), 0 < ht.length →
      k ∈ tableKeys ht → k ∈ tableKeys (flush_caches_loop hash a ht cs).1
  | [], _, _, _, h => h
  | c :: rest, ht, k, hlen, h =>
      flush_caches_loop_keys_mono hash a rest _ k
        (by rw [flush_cache_fst_length]; exact hlen)
        (flush_cache_keys_mono hash a ht c k hlen h)

theorem flush_caches_loop_keys_pending (hash : String → Nat) :
    ∀ (cs : List thread_cache) (ht : Table) (c : thread_cache) (k : String) (v : Nat),
      0 < ht.length → c ∈ cs → (k, v) ∈ pendingWrites c →
      k ∈ tableKeys (flush_caches_loop hash true ht cs).1
  | [], _, _, _, _, _, hc, _ => absurd hc (List.not_mem_nil _)
  | c0 :: rest, ht, c, k, v, hlen, hc, hp => by
      rcases List.mem_cons.mp hc with h1 | h1
      · subst h1
        exact flush_caches_loop_keys_mono hash true rest _ k
          (by rw [flush_cache_fst_length]; exact hlen)
          (flush_cache_keys_pending hash ht c k v hlen hp)
      · exact flush_caches_loop_keys_pending hash rest _ c k v
          (by rw [flush_cache_fst_length]; exact hlen) h1 hp

/-- C7: with allocation succeeding, `hash_table_v2_destroy` first flushes
every cache registered at the time of the call, so every write buffered in
any registered thread cache has its key present in the drained entry set
(the bucket store's contents freed at the end of destroy). -/
theorem C7_destroy_flushes_all (hash : String → Nat) (t : Table)
    (caches : List thread_cache) (hlen : 0 < t.length) :
    ∀ c ∈ caches, ∀ p ∈ pendingWrites c,
      p.1 ∈ (hash_table_v2_destroy hash true t caches).map list_entry.key := by
  intro c hc p hp
  unfold hash_table_v2_destroy flush_all_caches
  have hcond : (!caches.isEmpty && !true) = false := by simp
  rw [hcond]
  show p.1 ∈ tableKeys (flush_caches_loop hash true t caches).1
  exact flush_caches_loop_keys_pending hash caches t c p.1 p.2 hlen hc
    (by rw [Prod.mk.eta]; exact hp)

/-- Witness for C7: three caches with two unflushed writes each; all six keys
are present in the drained entry set (spec §8 scenario, shown here for the
first and last buffered write). -/
theorem C7_destroy_flushes_all_witness :
    0 < c7table.length
    ∧ "a" ∈ (hash_table_v2_destroy (fun s => s.length) true c7table c7caches).map
        list_entry.key
    ∧ "f" ∈ (hash_table_v2_destroy (fun s => s.length) true c7table c7caches).map
        list_entry.key :=
  ⟨by decide,
   C7_destroy_flushes_all (fun s => s.length) c7table c7caches (by decide)
     (mkCache2 "a" "b" 1 2) (by decide) ("a", 1) (by decide),
   C7_destroy_flushes_all (fun s => s.length) c7table c7caches (by decide)
     (mkCache2 "e" "f" 5 6) (by decide) ("f", 6) (by decide)⟩

/-! ### Lock discipline lemmas -/

theorem run_held_append :
    ∀ (xs ys : List lock_ev) (held : List lock_id),
      run_held held (xs ++ ys) = (run_held held xs).bind (fun h2 => run_held h2 ys)
  | [], _, _ => rfl
  | .acq l :: xs, ys, held => by
      simp only [List.cons_append, run_held]
      by_cases h : acq_ok held l = true
      · rw [if_pos h, if_pos h]
        exact run_held_append xs ys _
      · rw [if_neg h, if_neg h]
        rfl
  | .rel l :: xs, ys, held => by
      simp only [List.cons_append, run_held]
      exact run_held_append xs ys _

theorem run_held_register : run_held [] register_trace = some [] := rfl

theorem run_held_pairs (hash : String → Nat) (capacity : Nat) :
    ∀ (ces : List cache_entry) (held : List lock_id),
      lock_id.registry ∉ held →
      run_held held (ces.flatMap (fun ce =>
        match ce.key with
        | none => []
        | some k => bucket_pair (hash k % capacity))) = some held
  | [], _, _ => rfl
  | ce :: rest, held, hreg => by
      rw [List.flatMap_cons]
      rcases ce with ⟨ko, v0⟩
      cases ko with
      | none =>
          simpa using run_held_pairs hash capacity rest held hreg
      | some k =>
          show run_held held
            ([.acq (.bucket (hash k % capacity)), .rel (.bucket (hash k % capacity))]
              ++ _) = _
          simp only [List.cons_append, List.nil_append, run_held]
          have hok : acq_ok held (.bucket (hash k % capacity)) = true := by
            unfold acq_ok
            rw [decide_eq_true hreg]
          rw [if_pos hok, List.erase_cons_head]
          exact run_held_pairs hash capacity rest held hreg

theorem run_held_flush_trace (hash : String → Nat) (capacity : Nat) (tid : Nat)
    (c : thread_cache) (held : List lock_id)
    (h1 : lock_id.registry ∉ held) (h2 : ∀ l ∈ held, is_bucket l = false) :
    run_held held (flush_trace hash capacity tid c) = some held := by
  unfold flush_trace
  simp only [run_held]
  have hok : acq_ok held (.cache tid) = true := by
    unfold acq_ok
    rw [decide_eq_true h1, decide_eq_true h2]
    rfl
  rw [if_pos hok, run_held_append]
  have hreg2 : lock_id.registry ∉ lock_id.cache tid :: held := by
    intro hm
    rcases List.mem_cons.mp hm with h | h
    · cases h
    · exact h1 h
  rw [run_held_pairs hash capacity _ _ hreg2]
  show run_held ((lock_id.cache tid :: held).erase (lock_id.cache tid)) [] = some held
  rw [List.erase_cons_head]
  rfl

theorem discipline_flush_trace (hash : String → Nat) (capacity : Nat) (tid : Nat)
    (c : thread_cache) : discipline_ok (flush_trace hash capacity tid c) = true := by
  unfold discipline_ok
  rw [run_held_flush_trace hash capacity tid c []
    (by simp) (by intro l hl; cases hl)]
  rfl

theorem run_held_cache_lock_pair (tid : Nat) :
    run_held [] [lock_ev.acq (lock_id.cache tid), lock_ev.rel (lock_id.cache tid)]
      = some [] := by
  have hok : acq_ok [] (lock_id.cache tid) = true := by
    unfold acq_ok
    rw [decide_eq_true (List.not_mem_nil _),
      decide_eq_true (fun l hl => absurd hl (List.not_mem_nil _))]
    rfl
  simp only [run_held, if_pos hok, List.erase_cons_head]

theorem discipline_add_entry_trace (hash : String → Nat) (capacity : Nat) (tid : Nat)
    (s : TState) : discipline_ok (add_entry_trace hash capacity tid s) = true := by
  unfold discipline_ok add_entry_trace
  rw [run_held_append]
  have h1 : run_held [] (if s.registered then [] else register_trace) = some [] := by
    split
    · rfl
    · rfl
  rw [h1]
  by_cases hfull : (register_thread_cache s).cache.count = CACHE_SIZE
  · rw [if_pos hfull]
    show (run_held []
      ([lock_ev.acq (lock_id.cache tid), lock_ev.rel (lock_id.cache tid)]
        ++ flush_trace hash capacity tid (register_thread_cache s).cache
        ++ [lock_ev.acq (lock_id.cache tid), lock_ev.rel (lock_id.cache tid)])).isSome
      = true
    rw [run_held_append, run_held_append, run_held_cache_lock_pair]
    show ((run_held [] (flush_trace hash capacity tid (register_thread_cache s).cache)).bind
      _).isSome = true
    rw [run_held_flush_trace hash capacity tid _ [] (by simp) (by intro l hl; cases hl)]
    rfl
  · rw [if_neg hfull]
    rfl

theorem discipline_contains_trace (hash : String → Nat) (capacity : Nat) (tid : Nat)
    (s : TState) (key : String) :
    discipline_ok (contains_trace hash capacity tid s key) = true := by
  unfold discipline_ok contains_trace
  rw [run_held_append]
  have h1 : run_held [] (if s.registered && s.cache.dirty then
      flush_trace hash capacity tid s.cache else []) = some [] := by
    split
    · exact run_held_flush_trace hash capacity tid _ [] (by simp)
        (by intro l hl; cases hl)
    · rfl
  rw [h1]
  rfl

theorem run_held_flushes (hash : String → Nat) (capacity : Nat) :
    ∀ (cs : List (Nat × thread_cache)),
      run_held [] (cs.flatMap (fun tc => flush_trace hash capacity tc.1 tc.2)) = some []
  | [] => rfl
  | tc :: rest => by
      rw [List.flatMap_cons, run_held_append,
        run_held_flush_trace hash capacity tc.1 tc.2 [] (by simp)
          (by intro l hl; cases hl)]
      exact run_held_flushes hash capacity rest

theorem run_held_flush_all_trace (hash : String → Nat) (capacity : Nat) (a : Bool)
    (cs : List (Nat × thread_cache)) :
    run_held [] (flush_all_trace hash capacity a cs) = some [] := by
  unfold flush_all_trace
  rw [run_held_append, run_held_register]
  show run_held [] (if !cs.isEmpty && !a then []
    else cs.flatMap (fun tc => flush_trace hash capacity tc.1 tc.2)) = some []
  split
  · rfl
  · exact run_held_flushes hash capacity cs

theorem run_held_cache_pairs :
    ∀ (cs : List (Nat × thread_cache)),
      run_held [] (cs.flatMap (fun tc =>
        [lock_ev.acq (lock_id.cache tc.1), lock_ev.rel (lock_id.cache tc.1)])) = some []
  | [] => rfl
  | tc :: rest => by
      rw [List.flatMap_cons, run_held_append, run_held_cache_lock_pair]
      exact run_held_cache_pairs rest

/-- C9: every operation's lock-event trace respects the nesting discipline:
the registry lock is only ever taken with no lock held (and is released
before any further lock is taken), a cache lock is never requested while the
registry lock or any bucket lock is held, and a bucket lock is never
requested while the registry lock is held; `flush_all_trace` in particular
snapshots the registry under `master_lock` and releases it before any cache
or bucket lock is acquired.  The traces are read off the source line by
line, for every state, cache content, registry content and allocation
environment. -/
theorem C9_lock_nesting (hash : String → Nat) (capacity : Nat) (tid : Nat) (s : TState)
    (key : String) (c : thread_cache) (a : Bool)
    (caches : List (Nat × thread_cache)) :
    discipline_ok (flush_trace hash capacity tid c) = true
    ∧ discipline_ok (add_entry_trace hash capacity tid s) = true
    ∧ discipline_ok (contains_trace hash capacity tid s key) = true
    ∧ discipline_ok (flush_all_trace hash capacity a caches) = true
    ∧ discipline_ok (destroy_trace hash capacity a caches) = true := by
  refine ⟨discipline_flush_trace hash capacity tid c,
    discipline_add_entry_trace hash capacity tid s,
    discipline_contains_trace hash capacity tid s key, ?_, ?_⟩
  · unfold discipline_ok
    rw [run_held_flush_all_trace]
    rfl
  · unfold discipline_ok destroy_trace
    rw [run_held_append, run_held_append, run_held_flush_all_trace]
    show ((run_held [] register_trace).bind (fun h2 => run_held h2
      (if !caches.isEmpty && !a then []
       else caches.flatMap (fun tc =>
         [lock_ev.acq (lock_id.cache tc.1), lock_ev.rel (lock_id.cache tc.1)])))).isSome
      = true
    rw [run_held_register]
    show (run_held [] (if !caches.isEmpty && !a then []
      else caches.flatMap (fun tc =>
        [lock_ev.acq (lock_id.cache tc.1), lock_ev.rel (lock_id.cache tc.1)]))).isSome
      = true
    split
    · rfl
    · rw [run_held_cache_pairs]
      rfl

/-! ### Read path over runs -/

theorem self_flush_keys_elim (hash : String → Nat) (a : Bool) (s : TState) (k2 : String)
    (h : k2 ∈ tableKeys (self_flush hash a s).table) : stateKeys s k2 := by
  unfold self_flush at h
  by_cases hd : (s.registered && s.cache.dirty) = true
  · rw [if_pos hd] at h
    dsimp only at h
    exact flush_cache_keys_elim hash a s.table s.cache k2 h
  · rw [if_neg hd] at h
    exact Or.inl h

theorem self_flush_TableWF (hash : String → Nat) (a : Bool) (s : TState)
    (h : TableWF hash s.table) : TableWF hash (self_flush hash a s).table := by
  unfold self_flush
  split
  · dsimp only
    exact flush_cache_TableWF hash a s.table s.cache h
  · exact h

theorem table_lookup_replicate (hash : String → Nat) (capacity : Nat) (k : String) :
    table_lookup hash (List.replicate capacity ([] : List list_entry)) k = none := by
  unfold table_lookup
  generalize hash k % (List.replicate capacity ([] : List list_entry)).length = i
  by_cases hi : i < capacity
  · rw [List.getD_eq_getElem _ _ (by simpa using hi)]
    rw [List.getElem_replicate]
    rfl
  · rw [List.getD_eq_default _ _ (by simpa using Nat.le_of_not_lt hi)]
    rfl

theorem view_initState (hash : String → Nat) (capacity : Nat) (k : String) :
    view hash (initState capacity) k = none := by
  unfold view
  rw [show pendingWrites (initState capacity).cache = [] from rfl, lastWrite_nil,
    Option.none_or]
  exact table_lookup_replicate hash capacity k

theorem StateWF_initState (capacity : Nat) : StateWF (initState capacity) :=
  ⟨CacheWF_initCache, fun _ => rfl⟩

/-- C1 amended: for every sequence of `add_entry(k, v)` calls issued by one
thread on a fresh table (allocation succeeding throughout), a subsequent
read of `k` by that thread observes the value of the most recent `add_entry`
for `k`: the spec-modelled `get_value` returns exactly the last-written
value, and `contains` returns `true` provided the thread has written at most
10000 distinct keys — the bounded bucket scan of `hash_table_v2_contains`
(10000-iteration safeguard) otherwise misses entries beyond the first 10000
nodes of a bucket, which is what the counterexample exhibits. -/
theorem C1_amended_read_your_writes (hash : String → Nat) (capacity : Nat)
    (ws : List (String × Nat)) (k : String)
    (hcap : 0 < capacity) (hk : k ∈ ws.map Prod.fst) :
    (∃ v, lastWrite ws k = some v
      ∧ (hash_table_v2_get_value hash true (run hash true (initState capacity) ws) k).1
          = some v)
    ∧ ((ws.map Prod.fst).dedup.length ≤ 10000 →
        (hash_table_v2_contains hash true (run hash true (initState capacity) ws) k).1
          = true) := by
  have hwf0 : StateWF (initState capacity) := StateWF_initState capacity
  have hlen0 : 0 < (initState capacity).table.length := by
    show 0 < (List.replicate capacity ([] : List list_entry)).length
    simpa using hcap
  have hswf : StateWF (run hash true (initState capacity) ws) := run_wf hash ws _ hwf0
  have hslen : 0 < (run hash true (initState capacity) ws).table.length := by
    rw [run_table_length]
    exact hlen0
  have hview : view hash (run hash true (initState capacity) ws) k = lastWrite ws k := by
    rw [view_run hash ws (initState capacity) hwf0 hlen0 k, view_initState,
      Option.or_none]
  obtain ⟨p, hp, hpk⟩ := List.mem_map.mp hk
  have hfind : (List.find? (fun q => q.1 == k) ws.reverse).isSome = true :=
    List.find?_isSome.mpr ⟨p, List.mem_reverse.mpr hp, by simp [hpk]⟩
  obtain ⟨q, hq⟩ := Option.isSome_iff_exists.mp hfind
  have hlast : lastWrite ws k = some q.2 := by
    unfold lastWrite
    rw [hq]
    rfl
  constructor
  · refine ⟨q.2, hlast, ?_⟩
    rw [get_value_eq_view hash _ hswf hslen k, hview, hlast]
  · intro hded
    show scan_bucket ((self_flush hash true (run hash true (initState capacity) ws)).table.getD
        (hash k % (self_flush hash true (run hash true (initState capacity) ws)).table.length)
        []) k 0 10000 = true
    have hTwf : TableWF hash (self_flush hash true (run hash true (initState capacity) ws)).table :=
      self_flush_TableWF hash true _ (run_TableWF hash ws _ (TableWF_replicate hash capacity))
    have hnodup : (((self_flush hash true (run hash true (initState capacity) ws)).table.getD
        (hash k % (self_flush hash true (run hash true (initState capacity) ws)).table.length)
        []).map list_entry.key).Nodup :=
      (hTwf _).1
    have hsub : ∀ k2 ∈ (((self_flush hash true (run hash true (initState capacity) ws)).table.getD
        (hash k % (self_flush hash true (run hash true (initState capacity) ws)).table.length)
        []).map list_entry.key), k2 ∈ ws.map Prod.fst := by
      intro k2 hk2
      obtain ⟨e, he, hke⟩ := List.mem_map.mp hk2
      have hmem : k2 ∈ tableKeys (self_flush hash true
          (run hash true (initState capacity) ws)).table :=
        tableKeys_mem_iff.mpr ⟨_, e, he, hke⟩
      have hstate := self_flush_keys_elim hash true _ k2 hmem
      rcases run_stateKeys hash ws _ hwf0 hlen0 k2 hstate with h1 | h1
      · exact h1
      · exact absurd h1 (stateKeys_initState capacity k2)
    have hblen : ((self_flush hash true (run hash true (initState capacity) ws)).table.getD
        (hash k % (self_flush hash true (run hash true (initState capacity) ws)).table.length)
        []).length ≤ 10000 := by
      have hb := nodup_subset_length_le_dedup _ _ hnodup hsub
      rw [List.length_map] at hb
      omega
    rw [scan_bucket_complete _ k 0 10000 (by omega)]
    have hlook : slist_lookup ((self_flush hash true
        (run hash true (initState capacity) ws)).table.getD
        (hash k % (self_flush hash true (run hash true (initState capacity) ws)).table.length)
        []) k = some q.2 := by
      show table_lookup hash (self_flush hash true
        (run hash true (initState capacity) ws)).table k = some q.2
      rw [self_flush_lookup hash _ hswf hslen k, hview, hlast]
    rw [hlook]
    rfl

/-- Witness for C1's amended theorem: three writes, two to "a"; `get_value`
returns the latest value 2 and `contains` returns true. -/
theorem C1_amended_read_your_writes_witness :
    (0 < 4 ∧ "a" ∈ ([("a", 1), ("a", 2), ("b", 3)].map Prod.fst))
    ∧ ((∃ v, lastWrite [("a", 1), ("a", 2), ("b", 3)] "a" = some v
        ∧ (hash_table_v2_get_value (fun s => s.length) true
            (run (fun s => s.length) true (initState 4) [("a", 1), ("a", 2), ("b", 3)])
            "a").1 = some v)
      ∧ (([("a", 1), ("a", 2), ("b", 3)].map Prod.fst).dedup.length ≤ 10000 →
          (hash_table_v2_contains (fun s => s.length) true
            (run (fun s => s.length) true (initState 4) [("a", 1), ("a", 2), ("b", 3)])
            "a").1 = true)) :=
  ⟨⟨by decide, by decide⟩,
   C1_amended_read_your_writes (fun s => s.length) 4 [("a", 1), ("a", 2), ("b", 3)] "a"
     (by decide) (by decide)⟩

/-! ### Single-bucket runs of fresh keys keep insertion-reverse order -/

theorem flush_loop_fresh (hash : String → Nat) :
    ∀ (ces : List cache_entry) (b : List list_entry),
      (((ces.filterMap cacheKV).map Prod.fst).Nodup) →
      (∀ q ∈ ces.filterMap cacheKV, q.1 ∉ b.map list_entry.key) →
      flush_loop hash true [b] ces
        = ([((ces.filterMap cacheKV).map toLE).reverse ++ b], ces)
  | [], _, _, _ => rfl
  | ce :: rest, b, hnd, hfresh => by
      rcases ce with ⟨ko, v0⟩
      cases ko with
      | none =>
          have hfm : List.filterMap cacheKV (⟨none, v0⟩ :: rest)
              = rest.filterMap cacheKV := by
            simp [List.filterMap_cons, cacheKV]
          rw [hfm] at hnd hfresh ⊢
          simp only [flush_loop, flush_one_none]
          rw [flush_loop_fresh hash rest b hnd hfresh]
      | some k0 =>
          have hfm : List.filterMap cacheKV (⟨some k0, v0⟩ :: rest)
              = (k0, v0) :: rest.filterMap cacheKV := by
            simp [List.filterMap_cons, cacheKV]
          rw [hfm] at hnd hfresh
          have hndc : (k0 ∉ (rest.filterMap cacheKV).map Prod.fst)
              ∧ ((rest.filterMap cacheKV).map Prod.fst).Nodup := by
            rw [List.map_cons] at hnd
            exact List.nodup_cons.mp hnd
          have hk0b : k0 ∉ b.map list_entry.key :=
            hfresh (k0, v0) (List.mem_cons_self _ _)
          have hupd : slist_update_first b k0 v0 = none :=
            slist_update_first_eq_none.mpr
              (fun e he hk => hk0b (List.mem_map.mpr ⟨e, he, hk⟩))
          have hstep : flush_one_entry hash true [b] ⟨some k0, v0⟩
              = ([({ key := k0, value := v0 } : list_entry) :: b], ⟨some k0, v0⟩) := by
            rw [flush_one_some]
            simp only [List.length_singleton, Nat.mod_one, List.getD_cons_zero, hupd,
              List.set_cons_zero]
            rfl
          have hnd2 := hndc.2
          have hfr2 : ∀ q ∈ rest.filterMap cacheKV,
              q.1 ∉ (({ key := k0, value := v0 } : list_entry) :: b).map
                list_entry.key := by
            intro q hq hmem
            rw [List.map_cons] at hmem
            rcases List.mem_cons.mp hmem with h1 | h1
            · apply hndc.1
              have hq1 : q.1 = k0 := h1
              rw [← hq1]
              exact List.mem_map.mpr ⟨q, hq, rfl⟩
            · exact hfresh q (List.mem_cons_of_mem _ hq) h1
          simp only [flush_loop, hstep]
          rw [flush_loop_fresh hash rest _ hnd2 hfr2]
          rw [hfm]
          simp [List.reverse_cons, List.append_assoc, toLE]

theorem map_key_toLE (l : List (String × Nat)) :
    (l.map toLE).map list_entry.key = l.map Prod.fst := by
  induction l with
  | nil => rfl
  | cons p rest ih => simp [toLE, ih]

theorem cex_flush_table (hash : String → Nat) (c : thread_cache)
    (flushed : List (String × Nat))
    (hnd : ((flushed ++ pendingWrites c).map Prod.fst).Nodup) :
    flush_thread_cache hash true [(flushed.map toLE).reverse] c
      = ([((flushed ++ pendingWrites c).map toLE).reverse],
         { entries := c.entries, count := 0, dirty := false }) := by
  have hsplit : (flushed.map Prod.fst ++ (pendingWrites c).map Prod.fst).Nodup := by
    rw [← List.map_append]
    exact hnd
  obtain ⟨hndf, hndp, hdisj⟩ := List.nodup_append.mp hsplit
  have hBkeys : ((flushed.map toLE).reverse).map list_entry.key
      = (flushed.map Prod.fst).reverse := by
    rw [List.map_reverse, map_key_toLE]
  have hfr : ∀ q ∈ pendingWrites c,
      q.1 ∉ ((flushed.map toLE).reverse).map list_entry.key := by
    intro q hq hmem
    rw [hBkeys, List.mem_reverse] at hmem
    exact hdisj hmem (List.mem_map.mpr ⟨q, hq, rfl⟩)
  unfold flush_thread_cache
  dsimp only
  rw [flush_loop_fresh hash (c.entries.take c.count) ((flushed.map toLE).reverse)
    (by exact hndp) (by exact hfr)]
  dsimp only
  rw [List.take_append_drop]
  have hcat : ((flushed ++ pendingWrites c).map toLE).reverse
      = ((pendingWrites c).map toLE).reverse ++ (flushed.map toLE).reverse := by
    rw [List.map_append, List.reverse_append]
  rw [hcat]
  rfl

theorem cex_add_step (hash : String → Nat) (done : List (String × Nat)) (s : TState)
    (w : String × Nat) (hinv : CexInv done s)
    (hnd : ((done ++ [w]).map Prod.fst).Nodup) :
    CexInv (done ++ [w]) (hash_table_v2_add_entry hash true s w.1 w.2) := by
  rcases hinv with ⟨hdone, hs⟩ | ⟨hreg, hcwf, hpne, flushed, hdone, htab⟩
  · subst hs
    subst hdone
    have hfull : ¬((register_thread_cache (initState 1)).cache.count = CACHE_SIZE) := by
      decide
    rw [add_entry_true_notfull hash (initState 1) w.1 w.2 hfull]
    have hpw0 : pendingWrites (register_thread_cache (initState 1)).cache = [] := rfl
    have hpw : pendingWrites
        { entries := (register_thread_cache (initState 1)).cache.entries.set
            (register_thread_cache (initState 1)).cache.count ⟨some w.1, w.2⟩,
          count := (register_thread_cache (initState 1)).cache.count + 1,
          dirty := true } = [(w.1, w.2)] := by
      rw [pendingWrites_append _ w.1 w.2 (by decide), hpw0, List.nil_append]
    refine Or.inr ⟨register_registered _, ?_, ?_, [], ?_, ?_⟩
    · exact append_cache_wf (register_thread_cache (initState 1)).cache w.1 w.2
        (by exact CacheWF_initCache) (by decide)
    · show pendingWrites _ ≠ []
      rw [hpw]
      simp
    · show [] ++ [w] = [] ++ pendingWrites _
      rw [hpw]
    · rfl
  · have hreg2 : register_thread_cache s = s := by
      unfold register_thread_cache
      rw [hreg]
      rfl
    have hndd : ((flushed ++ pendingWrites s.cache).map Prod.fst).Nodup := by
      rw [List.map_append] at hnd
      have hd := (List.nodup_append.mp hnd).1
      rw [hdone] at hd
      exact hd
    by_cases hfull : s.cache.count = CACHE_SIZE
    · have hfull2 : (register_thread_cache s).cache.count = CACHE_SIZE := by
        rw [hreg2]
        exact hfull
      rw [add_entry_true_full hash s w.1 w.2 hfull2, hreg2]
      have hfl := cex_flush_table hash s.cache flushed hndd
      rw [htab, hfl]
      have hcwf2 : CacheWF { entries := s.cache.entries, count := 0, dirty := false } := by
        refine ⟨hcwf.len, Nat.zero_le _, ?_, rfl⟩
        intro ce hce
        simp at hce
      have hpw : pendingWrites
          { entries := ({ entries := s.cache.entries, count := 0, dirty := false } : thread_cache).entries.set ({ entries := s.cache.entries, count := 0, dirty := false } : thread_cache).count ⟨some w.1, w.2⟩,
            count := ({ entries := s.cache.entries, count := 0, dirty := false } : thread_cache).count + 1,
            dirty := true } = [(w.1, w.2)] := by
        rw [pendingWrites_append _ w.1 w.2 (by dsimp only; rw [hcwf.len]; decide)]
        rfl
      refine Or.inr ⟨hreg, ?_, ?_, flushed ++ pendingWrites s.cache, ?_, ?_⟩
      · exact append_cache_wf { entries := s.cache.entries, count := 0, dirty := false }
          w.1 w.2 hcwf2 (by dsimp only; rw [hcwf.len]; decide)
      · show pendingWrites _ ≠ []
        rw [hpw]
        simp
      · show done ++ [w] = (flushed ++ pendingWrites s.cache) ++ pendingWrites _
        rw [hpw, hdone]
      · rfl
    · have hfull2 : ¬((register_thread_cache s).cache.count = CACHE_SIZE) := by
        rw [hreg2]
        exact hfull
      rw [add_entry_true_notfull hash s w.1 w.2 hfull2, hreg2]
      have hlt : s.cache.count < s.cache.entries.length := by
        rw [hcwf.len]
        have hle := hcwf.count_le
        rw [show CACHE_SIZE = 4 from rfl] at hle hfull ⊢
        omega
      refine Or.inr ⟨hreg, append_cache_wf s.cache w.1 w.2 hcwf hlt, ?_, flushed,
        ?_, ?_⟩
      · show pendingWrites _ ≠ []
        rw [pendingWrites_append s.cache w.1 w.2 hlt]
        simp
      · show done ++ [w] = flushed ++ pendingWrites _
        rw [pendingWrites_append s.cache w.1 w.2 hlt, hdone]
        simp
      · exact htab

theorem cex_run_inv (hash : String → Nat) :
    ∀ (ws done : List (String × Nat)) (s : TState),
      CexInv done s → ((done ++ ws).map Prod.fst).Nodup →
      CexInv (done ++ ws) (run hash true s ws)
  | [], done, s, hinv, _ => by simpa using hinv
  | w :: ws, done, s, hinv, hnd => by
      have hnd1 : ((done ++ [w]).map Prod.fst).Nodup := by
        have hsub : List.Sublist (done ++ [w]) (done ++ w :: ws) := by
          apply List.Sublist.append_left
          exact (List.nil_sublist ws).cons₂ w
        exact hnd.sublist (hsub.map Prod.fst)
      have hstep := cex_add_step hash done s w hinv hnd1
      have hrec := cex_run_inv hash ws (done ++ [w]) _ hstep
        (by simpa [List.append_assoc] using hnd)
      show CexInv (done ++ w :: ws) (run hash true (hash_table_v2_add_entry hash true s w.1 w.2) ws)
      have hassoc : done ++ w :: ws = (done ++ [w]) ++ ws := by simp
      rw [hassoc]
      exact hrec

theorem dirty_of_count_ne (c : thread_cache) (h : CacheWF c) (hc : c.count ≠ 0) :
    c.dirty = true := by
  rw [h.dirty_iff]
  exact decide_eq_true hc

theorem contains_eq_scan (hash : String → Nat) (a : Bool) (s : TState) (k : String) :
    (hash_table_v2_contains hash a s k).1
      = scan_bucket ((self_flush hash a s).table.getD
          (hash k % (self_flush hash a s).table.length) []) k 0 10000 := rfl

theorem cexKeys_eq : cexWrites.map Prod.fst
    = (List.range 10004).map (fun n => aKey (n + 1)) := by
  unfold cexWrites
  rw [List.map_map]
  rfl

theorem aKey_injective : Function.Injective (fun n : Nat => aKey (n + 1)) := by
  intro m n h
  have h2 : aKey (m + 1) = aKey (n + 1) := h
  have hlen : (aKey (m + 1)).length = (aKey (n + 1)).length := by rw [h2]
  unfold aKey at hlen
  rw [String.length_mk, String.length_mk, List.length_replicate,
    List.length_replicate] at hlen
  omega

theorem cexWrites_nodup : (cexWrites.map Prod.fst).Nodup := by
  rw [cexKeys_eq]
  exact List.Nodup.map aKey_injective (List.nodup_range 10004)

theorem cexWrites_mem : (aKey 1, 0) ∈ cexWrites := by
  unfold cexWrites
  exact List.mem_map.mpr ⟨0, List.mem_range.mpr (by norm_num), rfl⟩

theorem cexInv_run :
    CexInv cexWrites (run (fun _ => 0) true (initState 1) cexWrites) := by
  have hrun := cex_run_inv (fun _ => 0) cexWrites [] (initState 1)
    (Or.inl ⟨rfl, rfl⟩) (by simpa using cexWrites_nodup)
  rw [List.nil_append] at hrun
  exact hrun

theorem cex_table_final (s : TState) (flushed : List (String × Nat))
    (hreg : s.registered = true) (hdirty : s.cache.dirty = true)
    (hndd : ((flushed ++ pendingWrites s.cache).map Prod.fst).Nodup)
    (htab : s.table = [(flushed.map toLE).reverse])
    (hdone : cexWrites = flushed ++ pendingWrites s.cache) :
    (self_flush (fun _ => 0) true s).table = [(cexWrites.map toLE).reverse] := by
  have hfl := cex_flush_table (fun _ => 0) s.cache flushed hndd
  unfold self_flush
  rw [hreg, hdirty]
  rw [if_pos (show (true && true) = true from rfl)]
  dsimp only
  rw [htab, hfl]
  dsimp only
  rw [← hdone]

theorem getD_single_bucket (b : List list_entry) (k : String) :
    ([b] : Table).getD ((fun (_ : String) => 0) k % ([b] : Table).length) [] = b := by
  show ([b] : Table).getD (0 % ([b] : Table).length) [] = b
  rw [List.length_singleton, Nat.mod_one, List.getD_cons_zero]

theorem cex_scan_false :
    scan_bucket ((cexWrites.map toLE).reverse) (aKey 1) 0 10000 = false := by
  apply scan_bucket_take_none
  intro e he hk
  have hkm : aKey 1 ∈ (((cexWrites.map toLE).reverse).map list_entry.key).take
      10000 := by
    rw [← List.map_take]
    exact List.mem_map.mpr
      ⟨e, (show e ∈ ((cexWrites.map toLE).reverse).take 10000 from he), hk⟩
  rw [List.map_reverse, map_key_toLE, cexKeys_eq] at hkm
  have hdecomp : (List.range 10004).map (fun n => aKey (n + 1))
      = aKey 1 :: (List.range 10003).map (fun n => aKey (n + 2)) := by
    rw [List.range_succ_eq_map, List.map_cons, List.map_map]
    rfl
  rw [hdecomp, List.reverse_cons] at hkm
  have hlen3 : (((List.range 10003).map (fun n => aKey (n + 2))).reverse).length
      = 10003 := by
    simp
  rw [List.take_append_of_le_length (by rw [hlen3]; omega)] at hkm
  have hmem2 : aKey 1 ∈ (List.range 10003).map (fun n => aKey (n + 2)) :=
    List.mem_reverse.mp (List.mem_of_mem_take hkm)
  have hnd2 : (aKey 1 :: (List.range 10003).map (fun n => aKey (n + 2))).Nodup := by
    rw [← hdecomp, ← cexKeys_eq]
    exact cexWrites_nodup
  exact (List.nodup_cons.mp hnd2).1 hmem2

theorem cex_contains_false (s : TState) (flushed : List (String × Nat))
    (hcwf : CacheWF s.cache) (hreg : s.registered = true)
    (hpne : pendingWrites s.cache ≠ [])
    (hdone : cexWrites = flushed ++ pendingWrites s.cache)
    (htab : s.table = [(flushed.map toLE).reverse]) :
    (hash_table_v2_contains (fun _ => 0) true s (aKey 1)).1 = false := by
  have hcount : s.cache.count ≠ 0 := by
    intro h0
    exact hpne (pendingWrites_of_count_zero _ h0)
  have hdirty : s.cache.dirty = true := dirty_of_count_ne _ hcwf hcount
  have hndd : ((flushed ++ pendingWrites s.cache).map Prod.fst).Nodup := by
    rw [← hdone]
    exact cexWrites_nodup
  rw [contains_eq_scan,
    cex_table_final s flushed hreg hdirty hndd htab hdone,
    getD_single_bucket _ (aKey 1)]
  exact cex_scan_false

/-- C1 counterexample: a single thread issues 10004 `add_entry` calls with
pairwise distinct keys on a 1-bucket table (`HASH_TABLE_CAPACITY = 1` is a
legal consumer choice; every key hashes to bucket 0), every allocation
succeeding.  The very first written key, `aKey 1`, ends up beyond the first
10000 nodes of the bucket list (inserts are at the head), so the
10000-iteration safeguard in `hash_table_v2_contains` gives up before
reaching it: `contains` returns `false` for a key this same thread wrote,
refuting the claim that contains(k) returns true on a thread after it has
written k. -/
theorem C1_counterexample :
    (aKey 1, 0) ∈ cexWrites
    ∧ (hash_table_v2_contains (fun _ => 0) true
        (run (fun _ => 0) true (initState 1) cexWrites) (aKey 1)).1 = false := by
  refine ⟨cexWrites_mem, ?_⟩
  rcases cexInv_run with ⟨habs, _⟩ | ⟨hreg, hcwf, hpne, flushed, hdone, htab⟩
  · exfalso
    have hm := cexWrites_mem
    rw [habs] at hm
    cases hm
  · exact cex_contains_false _ flushed hcwf hreg hpne hdone htab
